import Mathlib

/-!
Verification development for the Wikipedia scraping/cleaning scripts of the
wikipedia-reliable-sources repository.

The Python sources are shallowly embedded: pure string manipulation is
translated to functions on `String`/`List Char`, the stdlib
`urllib.parse` helpers used by `normalize_url.py` are modelled after
CPython 3.11, stateful loops become folds with explicit accumulators, and
code that can raise returns `Except`.  HTTP interaction is modelled by
passing the sequence of responses the server would return (the functions
never retry, so each consumed response corresponds to one issued request).

Unicode caveats of the embedding, noted where relevant: `str.lower`,
`str.isalpha` and the NFKC check of `urllib.parse._checknetloc` are
modelled at ASCII fidelity (non-ASCII characters pass through unchanged);
the UTF-8 "replace" error handler is modelled by emitting one replacement
character per rejected lead byte.
-/

namespace WikiSources

/-! ## Python string primitives -/

/-- `str.lower` for a single character, at ASCII fidelity. -/
def pyLowerChar (c : Char) : Char :=
  if 'A' ≤ c ∧ c ≤ 'Z' then Char.ofNat (c.toNat + 32) else c

/-- `str.lower` on a character list. -/
def pyLower (l : List Char) : List Char := l.map pyLowerChar

/-- `str.lower` on a string. -/
def pyLowerS (s : String) : String := String.mk (pyLower s.data)

/-- Unicode whitespace as recognised by `str.strip` / `re` `\s`
(the characters Python's `str.isspace` accepts). -/
def pyIsSpace (c : Char) : Bool :=
  c = ' ' ∨ c = '\t' ∨ c = '\n' ∨ c.toNat = 0x0b ∨ c.toNat = 0x0c ∨ c = '\r' ∨
  (0x1c ≤ c.toNat ∧ c.toNat ≤ 0x1f) ∨ c.toNat = 0x85 ∨ c.toNat = 0xa0 ∨
  c.toNat = 0x1680 ∨ (0x2000 ≤ c.toNat ∧ c.toNat ≤ 0x200a) ∨
  c.toNat = 0x2028 ∨ c.toNat = 0x2029 ∨ c.toNat = 0x202f ∨
  c.toNat = 0x205f ∨ c.toNat = 0x3000

/-- `str.strip()` on a character list: remove leading and trailing whitespace. -/
def pyStripL (l : List Char) : List Char :=
  ((l.dropWhile pyIsSpace).reverse.dropWhile pyIsSpace).reverse

/-- `str.strip()` on a string. -/
def pyStrip (s : String) : String := String.mk (pyStripL s.data)

/-- `s.split(sep)` for a one-character separator, Python semantics:
`''.split('.') == ['']`. -/
def splitOnChar (sep : Char) : List Char → List (List Char)
  | [] => [[]]
  | c :: rest =>
    if c = sep then [] :: splitOnChar sep rest
    else
      match splitOnChar sep rest with
      | p :: ps => (c :: p) :: ps
      | [] => [[c]]

/-- `sep.join(parts)` for a one-character separator. -/
def intercalateChar (sep : Char) : List (List Char) → List Char
  | [] => []
  | [p] => p
  | p :: ps => p ++ sep :: intercalateChar sep ps

/-- `s.partition(sep)` for a one-character separator: `(before, found, after)`.
When `sep` is absent Python returns `(s, '', '')`, i.e. `found = false`. -/
def partitionChar (l : List Char) (sep : Char) : List Char × Bool × List Char :=
  let pre := l.takeWhile (fun c => ¬ c = sep)
  match l.dropWhile (fun c => ¬ c = sep) with
  | [] => (l, false, [])
  | _ :: post => (pre, true, post)

/-- The last component of `s.rpartition(sep)`: the suffix after the last
occurrence of `sep`, or all of `s` when `sep` is absent (which is how
`netloc.rpartition('@')` is consumed by `urllib.parse._hostinfo`). -/
def rpartitionAfter (l : List Char) (sep : Char) : List Char :=
  ((l.reverse.takeWhile (fun c => ¬ c = sep))).reverse

/-- `s.split(sep, 1)` for a one-character separator: `none` when `sep` is
absent, otherwise the parts before and after its first occurrence. -/
def splitOnceChar (l : List Char) (sep : Char) : Option (List Char × List Char) :=
  match l.dropWhile (fun c => ¬ c = sep) with
  | [] => none
  | _ :: post => some (l.takeWhile (fun c => ¬ c = sep), post)

/-- `s.split(sep)` for a non-empty multi-character separator: Python
semantics, scanning left to right and splitting at each non-overlapping
occurrence.  The first argument is fuel, instantiated with the input
length (every step consumes at least one character); `cur` holds the
current part reversed. -/
def splitOnSubGo (sep : List Char) : Nat → List Char → List Char → List (List Char)
  | 0, l, cur => [cur.reverse ++ l]
  | fuel + 1, l, cur =>
    match l with
    | [] => [cur.reverse]
    | c :: rest =>
      if sep.isPrefixOf l then cur.reverse :: splitOnSubGo sep fuel (l.drop sep.length) []
      else splitOnSubGo sep fuel rest (c :: cur)

/-- `s.split(sep)` for a non-empty multi-character separator. -/
def splitOnSub (sep l : List Char) : List (List Char) := splitOnSubGo sep l.length l []

/-- `s.split(sep, 1)` for a multi-character separator: the parts before
and after the first occurrence, or `none` when absent.  Fueled like
`splitOnSubGo`. -/
def splitOnceSub (sep : List Char) : Nat → List Char → Option (List Char × List Char)
  | 0, _ => none
  | fuel + 1, l =>
    if sep.isPrefixOf l then some ([], l.drop sep.length)
    else
      match l with
      | [] => none
      | c :: rest => (splitOnceSub sep fuel rest).map fun ab => (c :: ab.1, ab.2)

/-- `s.split(sep, 1)` on character lists. -/
def pySplitOnceL (l sep : List Char) : Option (List Char × List Char) :=
  splitOnceSub sep (l.length + 1) l

/-! ## UTF-8 and percent-encoding (`urllib.parse` quoting helpers)

These model `unquote`, `quote_plus`, `urlencode` and `parse_qsl` from
CPython 3.11's `urllib.parse`; they appear only in the query-string
branches of `canonicalize_url` that are dead under the default
`NormalizationConfig`. -/

/-- UTF-8 encoding of one character (Lean `Char` excludes surrogates, so
`'strict'` encoding never fails). -/
def utf8EncodeChar (c : Char) : List Nat :=
  let n := c.toNat
  if n < 0x80 then [n]
  else if n < 0x800 then [0xc0 + n / 64, 0x80 + n % 64]
  else if n < 0x10000 then [0xe0 + n / 4096, 0x80 + n / 64 % 64, 0x80 + n % 64]
  else [0xf0 + n / 0x40000, 0x80 + n / 4096 % 64, 0x80 + n / 64 % 64, 0x80 + n % 64]

/-- `s.encode('utf-8')`. -/
def utf8Encode (l : List Char) : List Nat := l.flatMap utf8EncodeChar

/-- Is `b` a UTF-8 continuation byte? -/
def utf8Cont (b : Nat) : Bool := 0x80 ≤ b ∧ b < 0xc0

/-- Second-byte constraint of a three-byte UTF-8 sequence (excludes
overlong encodings and surrogates). -/
def utf8Snd3 (b b2 : Nat) : Bool :=
  utf8Cont b2 ∧ (b = 0xe0 → 0xa0 ≤ b2) ∧ (b = 0xed → b2 ≤ 0x9f)

/-- Second-byte constraint of a four-byte UTF-8 sequence (excludes
overlong encodings and values above U+10FFFF). -/
def utf8Snd4 (b b2 : Nat) : Bool :=
  utf8Cont b2 ∧ (b = 0xf0 → 0x90 ≤ b2) ∧ (b = 0xf4 → b2 ≤ 0x8f)

/-- The UTF-8 `errors='replace'` decoding scan: invalid sequences produce
U+FFFD.  CPython replaces each maximal invalid subpart with one
replacement character; this model emits one replacement character per
rejected lead byte, which agrees with CPython on all well-formed input.
The first argument is fuel, instantiated with the byte count. -/
def utf8DecodeGo : Nat → List Nat → List Char
  | 0, _ => []
  | _, [] => []
  | fuel + 1, b :: rest =>
    if b < 0x80 then Char.ofNat b :: utf8DecodeGo fuel rest
    else if 0xc2 ≤ b ∧ b ≤ 0xdf then
      match rest with
      | b2 :: rest2 =>
        if utf8Cont b2 then
          Char.ofNat ((b - 0xc0) * 64 + (b2 - 0x80)) :: utf8DecodeGo fuel rest2
        else '\uFFFD' :: utf8DecodeGo fuel rest
      | [] => ['\uFFFD']
    else if 0xe0 ≤ b ∧ b ≤ 0xef then
      match rest with
      | b2 :: b3 :: rest3 =>
        if utf8Snd3 b b2 ∧ utf8Cont b3 then
          Char.ofNat ((b - 0xe0) * 4096 + (b2 - 0x80) * 64 + (b3 - 0x80)) ::
            utf8DecodeGo fuel rest3
        else '\uFFFD' :: utf8DecodeGo fuel rest
      | _ => '\uFFFD' :: utf8DecodeGo fuel rest
    else if 0xf0 ≤ b ∧ b ≤ 0xf4 then
      match rest with
      | b2 :: b3 :: b4 :: rest4 =>
        if utf8Snd4 b b2 ∧ utf8Cont b3 ∧ utf8Cont b4 then
          Char.ofNat ((b - 0xf0) * 0x40000 + (b2 - 0x80) * 4096 +
            (b3 - 0x80) * 64 + (b4 - 0x80)) :: utf8DecodeGo fuel rest4
        else '\uFFFD' :: utf8DecodeGo fuel rest
      | _ => '\uFFFD' :: utf8DecodeGo fuel rest
    else '\uFFFD' :: utf8DecodeGo fuel rest

/-- `bytes.decode('utf-8', 'replace')` (see `utf8DecodeGo`; every step of
the scan consumes at least one byte, so the input length bounds the number
of steps). -/
def utf8Decode (l : List Nat) : List Char := utf8DecodeGo l.length l

/-- Hexadecimal digit value, if `c` is one (`string.hexdigits`). -/
def hexVal (c : Char) : Option Nat :=
  if '0' ≤ c ∧ c ≤ '9' then some (c.toNat - '0'.toNat)
  else if 'a' ≤ c ∧ c ≤ 'f' then some (c.toNat - 'a'.toNat + 10)
  else if 'A' ≤ c ∧ c ≤ 'F' then some (c.toNat - 'A'.toNat + 10)
  else none

/-- The scanning core of `urllib.parse.unquote`.  CPython splits the input
into ASCII runs, percent-decodes each run to bytes
(`%xx` with two hex digits becomes one byte, a stray `%` stays literal)
and decodes the bytes as UTF-8 with `errors='replace'`; non-ASCII
characters pass through unchanged.  `acc` holds the pending bytes of the
current ASCII run. -/
def unquoteGo : Nat → List Char → List Nat → List Char
  | 0, _, acc => utf8Decode acc
  | _, [], acc => utf8Decode acc
  | fuel + 1, '%' :: rest, acc =>
    match rest with
    | h1 :: h2 :: rest2 =>
      match hexVal h1, hexVal h2 with
      | some v1, some v2 => unquoteGo fuel rest2 (acc ++ [v1 * 16 + v2])
      | _, _ => unquoteGo fuel rest (acc ++ ['%'.toNat])
    | _ => unquoteGo fuel rest (acc ++ ['%'.toNat])
  | fuel + 1, c :: rest, acc =>
    if c.toNat < 0x80 then unquoteGo fuel rest (acc ++ [c.toNat])
    else utf8Decode acc ++ c :: unquoteGo fuel rest []

/-- `urllib.parse.unquote(s)` with the default UTF-8/replace decoding. -/
def pyUnquote (s : String) : String := String.mk (unquoteGo s.data.length s.data [])

/-- The bytes that `quote` never escapes (`_ALWAYS_SAFE`):
ASCII letters, digits and `_.-~`. -/
def alwaysSafeByte (b : Nat) : Bool :=
  ('A'.toNat ≤ b ∧ b ≤ 'Z'.toNat) ∨ ('a'.toNat ≤ b ∧ b ≤ 'z'.toNat) ∨
  ('0'.toNat ≤ b ∧ b ≤ '9'.toNat) ∨ b = '_'.toNat ∨ b = '.'.toNat ∨
  b = '-'.toNat ∨ b = '~'.toNat

/-- Uppercase hexadecimal digit for `n < 16`. -/
def hexUpper (n : Nat) : Char :=
  if n < 10 then Char.ofNat ('0'.toNat + n) else Char.ofNat ('A'.toNat + n - 10)

/-- `quote_from_bytes(bs, safe)`: safe bytes stay, others become `%XX`. -/
def quoteFromBytes (safe : List Nat) (bs : List Nat) : List Char :=
  bs.flatMap fun b =>
    if alwaysSafeByte b ∨ b ∈ safe then [Char.ofNat b]
    else ['%', hexUpper (b / 16), hexUpper (b % 16)]

/-- `urllib.parse.quote_plus(s)` with `safe=''`: UTF-8 encode, escape all
non-safe bytes, and render spaces as `+`. -/
def pyQuotePlus (s : String) : String :=
  if ' ' ∈ s.data then
    String.mk ((quoteFromBytes [' '.toNat] (utf8Encode s.data)).map
      fun c => if c = ' ' then '+' else c)
  else String.mk (quoteFromBytes [] (utf8Encode s.data))

/-- `urllib.parse.parse_qsl(qs, keep_blank_values)` with the default `&`
separator: split on `&`, drop empty fields, split each field at the first
`=` (fields without `=` and fields with an empty value are dropped unless
`keep_blank_values`), then `+`-to-space and percent-decode each side. -/
def pyParseQsl (qs : String) (keepBlank : Bool) : List (String × String) :=
  let fields := if qs = "" then [] else splitOnChar '&' qs.data
  fields.filterMap fun f =>
    if f = [] then none
    else
      let decode := fun (part : List Char) =>
        pyUnquote (String.mk (part.map fun c => if c = '+' then ' ' else c))
      match splitOnceChar f '=' with
      | none => if keepBlank then some (decode f, "") else none
      | some (name, value) =>
        if value = [] ∧ ¬ keepBlank then none
        else some (decode name, decode value)

/-- Lexicographic comparison of query pairs, as Python's `sorted` orders
2-tuples of strings (by code point). -/
def pairLE (p q : String × String) : Prop :=
  p.1.data < q.1.data ∨ (p.1.data = q.1.data ∧ p.2.data ≤ q.2.data)

instance : DecidableRel pairLE := fun p q => by
  unfold pairLE; infer_instance

/-- `sorted(pairs)` for query pairs. -/
def pySortPairs (l : List (String × String)) : List (String × String) :=
  List.insertionSort pairLE l

/-- `urllib.parse.urlencode(pairs)` with the default `quote_plus`. -/
def pyUrlencode (l : List (String × String)) : String :=
  String.intercalate "&" (l.map fun kv => pyQuotePlus kv.1 ++ "=" ++ pyQuotePlus kv.2)

/-! ## `urllib.parse.urlsplit` / `urlparse` (CPython 3.11) -/

/-- `urlsplit` first removes the bytes of `_UNSAFE_URL_BYTES_TO_REMOVE`
(`\t`, `\r`, `\n`); the sequence of `str.replace` calls amounts to a filter. -/
def stripUrlBytes (l : List Char) : List Char :=
  l.filter fun c => ¬ (c = '\t' ∨ c = '\r' ∨ c = '\n')

/-- `scheme_chars` from `urllib.parse`. -/
def schemeCharsL : List Char :=
  "abcdefghijklmnopqrstuvwxyzABCDEFGHIJKLMNOPQRSTUVWXYZ0123456789+-.".data

/-- `c.isascii() and c.isalpha()`. -/
def isAsciiAlpha (c : Char) : Bool := ('A' ≤ c ∧ c ≤ 'Z') ∨ ('a' ≤ c ∧ c ≤ 'z')

/-- Result of `urlsplit`, on character lists. -/
structure PySplitResult where
  scheme : List Char
  netloc : List Char
  path : List Char
  query : List Char
  fragment : List Char
deriving Repr, DecidableEq

/-- The scheme-detection step of `urlsplit`: the text before the first `:`
is a scheme when it is non-empty, starts with an ASCII letter and contains
only `scheme_chars`; it is then lowercased. -/
def splitSchemeL (url : List Char) : List Char × List Char :=
  match splitOnceChar url ':' with
  | none => ([], url)
  | some (pre, post) =>
    if ¬ pre = [] ∧ ((pre.head?.map isAsciiAlpha).getD false) = true ∧
        pre.all (fun c => c ∈ schemeCharsL) then
      (pyLower pre, post)
    else ([], url)

/-- Is `c` one of the netloc delimiters `/?#` (`_splitnetloc` stops at the
earliest of them)? -/
def netlocDelim (c : Char) : Bool := c = '/' ∨ c = '?' ∨ c = '#'

/-- `urllib.parse.urlsplit(url)` (CPython 3.11).  Raises `ValueError` on a
netloc with unbalanced brackets.  The `_checknetloc` NFKC check, which can
only raise for certain non-ASCII netlocs, is not modelled. -/
def pyUrlsplitL (url0 : List Char) : Except String PySplitResult :=
  let url1 := stripUrlBytes url0
  let sp := splitSchemeL url1
  let netloc :=
    if sp.2.take 2 = ['/', '/'] then (sp.2.drop 2).takeWhile (fun c => ¬ netlocDelim c)
    else []
  let url2 :=
    if sp.2.take 2 = ['/', '/'] then (sp.2.drop 2).dropWhile (fun c => ¬ netlocDelim c)
    else sp.2
  if ('[' ∈ netloc ∧ ¬ ']' ∈ netloc) ∨ (']' ∈ netloc ∧ ¬ '[' ∈ netloc) then
    .error "Invalid IPv6 URL"
  else
    let fr := match splitOnceChar url2 '#' with
      | some pf => pf
      | none => (url2, [])
    let pq := match splitOnceChar fr.1 '?' with
      | some pq => pq
      | none => (fr.1, [])
    .ok ⟨sp.1, netloc, pq.1, pq.2, fr.2⟩

/-- `uses_params` from `urllib.parse`. -/
def usesParamsL : List (List Char) :=
  [[], "ftp".data, "hdl".data, "prospero".data, "http".data, "imap".data,
   "https".data, "shttp".data, "rtsp".data, "rtspu".data, "sip".data,
   "sips".data, "mms".data, "sftp".data, "tel".data]

/-- `uses_netloc` from `urllib.parse`. -/
def usesNetlocL : List (List Char) :=
  [[], "ftp".data, "http".data, "gopher".data, "nntp".data, "telnet".data,
   "imap".data, "wais".data, "file".data, "mms".data, "https".data,
   "shttp".data, "snews".data, "prospero".data, "rtsp".data, "rtspu".data,
   "rsync".data, "svn".data, "svn+ssh".data, "sftp".data, "nfs".data,
   "git".data, "git+ssh".data, "ws".data, "wss".data]

/-- `urllib.parse._splitparams(url)`: split `;params` off the path; when
the path contains `/`, only a `;` at or after the last `/` counts. -/
def splitParamsL (url : List Char) : List Char × List Char :=
  if '/' ∈ url then
    let tailPart := rpartitionAfter url '/'
    match splitOnceChar tailPart ';' with
    | none => (url, [])
    | some ab => (url.take (url.length - tailPart.length + ab.1.length), ab.2)
  else
    match splitOnceChar url ';' with
    | none => (url, [])
    | some ab => (ab.1, ab.2)

/-- Result of `urlparse`, on character lists. -/
structure PyParseResult where
  scheme : List Char
  netloc : List Char
  path : List Char
  params : List Char
  query : List Char
  fragment : List Char
deriving Repr, DecidableEq

/-- `urllib.parse.urlparse(url)`: `urlsplit` plus the params split for
schemes in `uses_params`. -/
def pyUrlparseL (url : List Char) : Except String PyParseResult :=
  (pyUrlsplitL url).map fun r =>
    if r.scheme ∈ usesParamsL ∧ ';' ∈ r.path then
      let pp := splitParamsL r.path
      ⟨r.scheme, r.netloc, pp.1, pp.2, r.query, r.fragment⟩
    else ⟨r.scheme, r.netloc, r.path, [], r.query, r.fragment⟩

/-- The hostname part of `_hostinfo`: drop userinfo up to the last `@`,
then take the bracketed text before `]` if a `[` follows, otherwise the
text before the first `:`. -/
def hostinfoHostnameL (netloc : List Char) : List Char :=
  let hostinfo := rpartitionAfter netloc '@'
  let br := partitionChar hostinfo '['
  if br.2.1 then (partitionChar br.2.2 ']').1
  else (partitionChar hostinfo ':').1

/-- `SplitResult.hostname or ''`: empty when the extracted hostname is
empty (Python returns `None` then); otherwise the hostname is lowercased
except for a `%`-separated IPv6 zone suffix. -/
def hostnameOrEmptyL (netloc : List Char) : List Char :=
  let h := hostinfoHostnameL netloc
  if h = [] then []
  else
    let z := partitionChar h '%'
    if z.2.1 then pyLower z.1 ++ '%' :: z.2.2 else pyLower z.1

/-- `urllib.parse.urlunsplit`. -/
def urlunsplitL (scheme netloc url query fragment : List Char) : List Char :=
  let u1 :=
    if ¬ netloc = [] ∨ (¬ scheme = [] ∧ scheme ∈ usesNetlocL ∧ ¬ url.take 2 = ['/', '/']) then
      '/' :: '/' :: netloc ++ (if ¬ url = [] ∧ ¬ url.head? = some '/' then '/' :: url else url)
    else url
  let u2 := if ¬ scheme = [] then scheme ++ ':' :: u1 else u1
  let u3 := if ¬ query = [] then u2 ++ '?' :: query else u2
  if ¬ fragment = [] then u3 ++ '#' :: fragment else u3

/-- `urllib.parse.urlunparse`: rejoin params onto the path, then
`urlunsplit`. -/
def urlunparseL (scheme netloc url params query fragment : List Char) : List Char :=
  urlunsplitL scheme netloc (if ¬ params = [] then url ++ ';' :: params else url)
    query fragment

/-! ## `normalize_url.py` — the `src/src/utils` copy -/

namespace SrcNorm

/-- `NormalizationConfig` from `src/src/utils/normalize_url.py`
(`strip_query_params` is a plain `bool` in this copy). -/
structure NormalizationConfig where
  strip_www : Bool := true
  strip_subdomain : Bool := true
  include_path : Bool := false
  strip_query_params : Bool := true
  aliases : Option (List (String × String)) := none
deriving Repr, DecidableEq

/-- `NormalizationConfig()` — all defaults, no aliases. -/
def DEFAULT_CONFIG : NormalizationConfig := {}

/-- `strip_subdomain(hostname)`: keep only the last two dot-separated
labels. -/
def strip_subdomain (hostname : List Char) : List Char :=
  let parts := splitOnChar '.' hostname
  if parts.length > 2 then intercalateChar '.' (parts.drop (parts.length - 2))
  else hostname

/-- The alias step: `if config.aliases and host in config.aliases`
(a present but empty alias dict is falsy and skipped). -/
def applyAliases (aliases : Option (List (String × String))) (host : List Char) : List Char :=
  match aliases with
  | some al =>
    if ¬ al = [] then
      match al.find? (fun kv => kv.1.data = host) with
      | some kv => kv.2.data
      | none => host
    else host
  | none => host

/-- `canonicalize_url(url, config)` from `src/src/utils/normalize_url.py`.
An empty url is returned as is; otherwise the url is parsed, the host is
reduced (`www.` strip, subdomain strip, aliases), path and query are kept
or dropped per the config, and the reassembled URL is lowercased.
Exceptions from `urlparse` propagate. -/
def canonicalize_url (url : String) (config : NormalizationConfig) : Except String String :=
  if url = "" then .ok url
  else
    (pyUrlparseL url.data).map fun parsed =>
      let host0 := hostnameOrEmptyL parsed.netloc
      let host1 := if config.strip_www ∧ host0.take 4 = "www.".data then host0.drop 4 else host0
      let host2 := if config.strip_subdomain then strip_subdomain host1 else host1
      let host3 := applyAliases config.aliases host2
      let path := if config.include_path then parsed.path else []
      let query :=
        if ¬ config.strip_query_params then
          (pyUrlencode (pyParseQsl (String.mk parsed.query) false)).data
        else []
      String.mk (pyLower (urlunparseL parsed.scheme host3 path [] query []))

end SrcNorm

/-! ## `normalize_url.py` — the `src/core/utils` copy -/

namespace CoreNorm

/-- The `bool | list[str]` type of `strip_query_params` in the core copy. -/
inductive QueryStrip where
  | flag (b : Bool)
  | keys (ks : List String)
deriving Repr, DecidableEq

/-- `NormalizationConfig` from `src/core/utils/normalize_url.py`. -/
structure NormalizationConfig where
  strip_www : Bool := true
  strip_subdomain : Bool := true
  include_path : Bool := false
  strip_query_params : QueryStrip := .flag true
  aliases : Option (List (String × String)) := none
deriving Repr, DecidableEq

/-- `NormalizationConfig()` — all defaults, no aliases. -/
def DEFAULT_CONFIG : NormalizationConfig := {}

/-- `strip_subdomain(hostname)` from the core copy (same body as the src
copy). -/
def strip_subdomain (hostname : List Char) : List Char :=
  let parts := splitOnChar '.' hostname
  if parts.length > 2 then intercalateChar '.' (parts.drop (parts.length - 2))
  else hostname

/-- `canonicalize_url(url, config)` from `src/core/utils/normalize_url.py`.
Differs from the src copy only in the query handling: `True` drops the
query, a key list removes those keys then sorts and re-encodes, `False`
sorts and re-encodes all pairs (the latter two parse with
`keep_blank_values=True`). -/
def canonicalize_url (url : String) (config : NormalizationConfig) : Except String String :=
  if url = "" then .ok url
  else
    (pyUrlparseL url.data).map fun parsed =>
      let host0 := hostnameOrEmptyL parsed.netloc
      let host1 := if config.strip_www ∧ host0.take 4 = "www.".data then host0.drop 4 else host0
      let host2 := if config.strip_subdomain then strip_subdomain host1 else host1
      let host3 := SrcNorm.applyAliases config.aliases host2
      let path := if config.include_path then parsed.path else []
      let query :=
        match config.strip_query_params with
        | .flag true => []
        | .keys ks =>
          (pyUrlencode (pySortPairs
            ((pyParseQsl (String.mk parsed.query) true).filter
              (fun kv => ¬ kv.1 ∈ ks)))).data
        | .flag false =>
          (pyUrlencode (pySortPairs (pyParseQsl (String.mk parsed.query) true))).data
      String.mk (pyLower (urlunparseL parsed.scheme host3 path [] query []))

end CoreNorm

/-! ## `clean_sources.py` -/

namespace CleanSources

/-- One raw reference dict, with the two fields `clean_refs` reads.
A missing key is `none`; `ref.get("url") or ""` also maps an empty
string to `""`. -/
structure Ref where
  url : Option String := none
  article : Option String := none
deriving Repr, DecidableEq

/-- One output record of `clean_refs`. -/
structure SourceRecord where
  source : String
  unique_count : Nat
  total_count : Nat
deriving Repr, DecidableEq

/-- `ref.get("url") or ""`. -/
def urlOf (r : Ref) : String := r.url.getD ""

/-- The truthy article of a ref, if any: `article` is truthy exactly when
it is present and non-empty. -/
def articleOf (r : Ref) : Option String :=
  match r.article with
  | some a => if a = "" then none else some a
  | none => none

/-- `total_counter[canonical] += 1` on a `collections.Counter`, modelled as
an insertion-ordered association list (Python dicts preserve insertion
order). -/
def counterAdd : List (String × Nat) → String → List (String × Nat)
  | [], k => [(k, 1)]
  | (q, n) :: rest, k =>
    if q = k then (q, n + 1) :: rest else (q, n) :: counterAdd rest k

/-- Counter lookup with the `Counter` default of `0`. -/
def clookup : List (String × Nat) → String → Nat
  | [], _ => 0
  | (q, n) :: rest, k => if q = k then n else clookup rest k

/-- `set.add` on a set modelled as a duplicate-free list in insertion
order. -/
def setAdd (s : List String) (x : String) : List String :=
  if x ∈ s then s else s ++ [x]

/-- `unique_per_article[article].add(canonical)` on a
`defaultdict(set)`, modelled as an insertion-ordered association list. -/
def upaAdd : List (String × List String) → String → String → List (String × List String)
  | [], a, c => [(a, [c])]
  | (q, s) :: rest, a, c =>
    if q = a then (q, setAdd s c) :: rest else (q, s) :: upaAdd rest a c

/-- The loop body of `clean_refs`: canonicalize the ref's url, record it
under the ref's article when that is truthy, and bump the total counter.
Exceptions from `canonicalize_url` propagate. -/
def refStep (config : SrcNorm.NormalizationConfig)
    (acc : List (String × Nat) × List (String × List String)) (ref : Ref) :
    Except String (List (String × Nat) × List (String × List String)) :=
  (SrcNorm.canonicalize_url (urlOf ref) config).map fun canonical =>
    let upa := match articleOf ref with
      | some a => upaAdd acc.2 a canonical
      | none => acc.2
    (counterAdd acc.1 canonical, upa)

/-- `clean_refs(refs, config)`: fold the counting loop over the refs,
then emit one record per counter key (in insertion order), with
`unique_count` the number of per-article sets containing the source. -/
def clean_refs (refs : List Ref) (config : SrcNorm.NormalizationConfig) :
    Except String (List SourceRecord) :=
  (refs.foldlM (refStep config) ([], [])).map fun acc =>
    acc.1.map fun p =>
      { source := p.1
        unique_count := acc.2.countP fun q => decide (p.1 ∈ q.2)
        total_count := p.2 }

/-- The pure content of one `clean_refs` loop iteration, once the
canonical URL of the ref is known. -/
def pureStep (a : List (String × Nat) × List (String × List String))
    (rc : Ref × String) : List (String × Nat) × List (String × List String) :=
  (counterAdd a.1 rc.2,
    match articleOf rc.1 with
    | some art => upaAdd a.2 art rc.2
    | none => a.2)

/-- The `unique_per_article` component of one loop iteration. -/
def upaStep (u : List (String × List String)) (rc : Ref × String) :
    List (String × List String) :=
  match articleOf rc.1 with
  | some art => upaAdd u art rc.2
  | none => u

/-- How many per-article sets contain `c` (what `clean_refs` computes as
`unique_count`). -/
def upaCount (u : List (String × List String)) (c : String) : Nat :=
  u.countP fun q => decide (c ∈ q.2)

/-- The set stored for article `a` (empty when absent). -/
def upaGet (u : List (String × List String)) (a : String) : List String :=
  ((u.find? fun q => q.1 = a).map Prod.snd).getD []

/-- Descending order on `total_count` (the sort key of `rank_sources`,
with `reverse=True`). -/
def rankGE (a b : SourceRecord) : Prop := b.total_count ≤ a.total_count

instance : DecidableRel rankGE := fun a b => by unfold rankGE; infer_instance

instance : IsTotal SourceRecord rankGE :=
  ⟨fun a b => Nat.le_total b.total_count a.total_count⟩

instance : IsTrans SourceRecord rankGE :=
  ⟨fun _ _ _ h1 h2 => Nat.le_trans h2 h1⟩

/-- `rank_sources(data, limit=50)`: a stable descending sort on
`total_count` (Python's `sorted` with `reverse=True`, modelled by a stable
insertion sort), truncated to `limit` records. -/
def rank_sources (data : List SourceRecord) (limit : Nat := 50) : List SourceRecord :=
  (List.insertionSort rankGE data).take limit

end CleanSources

/-! ## `fetch_perennial_sources.py` -/

/-- The Python exceptions the modelled scripts can raise. -/
inductive PyError where
  | valueError
  | indexError
  | keyError
  | stopIteration
  | httpError
  | responsesExhausted
deriving Repr, DecidableEq

instance {ε α : Type} [DecidableEq ε] [DecidableEq α] : DecidableEq (Except ε α) :=
  fun x y =>
    match x, y with
    | .ok a, .ok b =>
      if h : a = b then isTrue (by rw [h])
      else isFalse (fun hh => h (Except.ok.inj hh))
    | .error a, .error b =>
      if h : a = b then isTrue (by rw [h])
      else isFalse (fun hh => h (Except.error.inj hh))
    | .ok _, .error _ => isFalse (fun hh => Except.noConfusion hh)
    | .error _, .ok _ => isFalse (fun hh => Except.noConfusion hh)

namespace Perennial

/-- The `SourceEntry` dataclass. -/
structure SourceEntry where
  source_name : String
  reliability_status : Option String := none
  notes : Option String := none
deriving Repr, DecidableEq

/-- `STATUS_MAP`: long-form reliability statuses to WP:RSPSTATUS codes. -/
def STATUS_MAP : List (String × String) :=
  [("generally reliable", "gr"), ("reliable", "gr"),
   ("generally unreliable", "gu"), ("unreliable", "gu"),
   ("no consensus", "nc"), ("deprecated", "d"), ("blacklisted", "d"),
   ("marginally reliable", "m")]

/-- `STATUS_MAP.get(key, key)`. -/
def statusGet (key : String) : String :=
  ((STATUS_MAP.find? fun kv => kv.1 = key).map (fun kv => kv.2)).getD key

/-- The literal prefix of `_SORT_RE` (`data-sort-value="[^"]*"\s*\|\s*`). -/
def sortValueLit : List Char := "data-sort-value=\"".data

/-- Match `_SORT_RE` at the start of `l`; on success return the remainder
after the match.  The regex is deterministic: `[^"]*` must run to the next
`"` and the greedy `\s*` runs stop at the first non-space, so a match is
the literal, a quote-free run, `"`, spaces, `|`, spaces. -/
def matchSortValue (l : List Char) : Option (List Char) :=
  if sortValueLit.isPrefixOf l then
    let l1 := l.drop sortValueLit.length
    match l1.dropWhile (fun c => ¬ c = '"') with
    | _ :: l2 =>
      match l2.dropWhile pyIsSpace with
      | '|' :: l4 => some (l4.dropWhile pyIsSpace)
      | _ => none
    | [] => none
  else none

/-- `_SORT_RE.sub("", name)`: scan left to right, removing each
non-overlapping match.  The first argument is fuel, instantiated with the
input length (every step consumes at least one character). -/
def sortSubGo : Nat → List Char → List Char
  | 0, l => l
  | fuel + 1, l =>
    match l with
    | [] => []
    | c :: rest =>
      match matchSortValue l with
      | some rem => sortSubGo fuel rem
      | none => c :: sortSubGo fuel rest

/-- `clean_source_name(name)`: remove sorting metadata, then strip. -/
def clean_source_name (name : String) : String :=
  pyStrip (String.mk (sortSubGo name.data.length name.data))

/-- The per-entry normalization inside the `clean_entries` loop: clean the
source name, and map a truthy reliability status through `STATUS_MAP`
after lowercasing. -/
def cleanOne (e : SourceEntry) : SourceEntry :=
  let status := match e.reliability_status with
    | some st => if st = "" then some st else some (statusGet (pyLowerS st))
    | none => none
  { source_name := clean_source_name e.source_name
    reliability_status := status
    notes := e.notes }

/-- The `clean_entries` loop with its `seen` set of lowercased names. -/
def cleanEntriesGo : List SourceEntry → List String → List SourceEntry
  | [], _ => []
  | e :: rest, seen =>
    let c := cleanOne e
    let key := pyLowerS c.source_name
    if key ∈ seen then cleanEntriesGo rest seen
    else c :: cleanEntriesGo rest (key :: seen)

/-- `clean_entries(entries)`: normalize each entry and drop entries whose
cleaned name repeats (case-insensitively) an earlier one. -/
def clean_entries (entries : List SourceEntry) : List SourceEntry :=
  cleanEntriesGo entries []

/-- Keep the first entry of each key class, in order — the declarative
form of first-occurrence deduplication, used to state what
`clean_entries` computes. -/
def dedupFirstBy (f : SourceEntry → String) : List SourceEntry → List SourceEntry
  | [] => []
  | e :: rest => e :: dedupFirstBy f (rest.filter fun x => ¬ f x = f e)
termination_by l => l.length
decreasing_by
  exact Nat.lt_succ_of_le (List.length_filter_le _ _)

/-- `validate_entries(entries)`: spot-check two well-known sources. -/
def validate_entries (entries : List SourceEntry) : Except PyError Unit :=
  let checks : List (String × String) :=
    [("ABC News (US)", "gr"), ("Daily Mail (MailOnline)", "d")]
  checks.foldlM
    (fun _ check =>
      match entries.find? (fun e => e.source_name = check.1) with
      | some m =>
        if m.reliability_status = some check.2 then Except.ok ()
        else Except.error PyError.valueError
      | none => Except.error PyError.valueError)
    ()

/-- `extract_rows(wikitext)`: restrict to the `<onlyinclude>` block when
present (`split("<onlyinclude>", 1)[1].split("</onlyinclude>", 1)[0]`),
split on `"\n|- "` and drop the leading chunk. -/
def extract_rows (wikitext : String) : List String :=
  let wl := match pySplitOnceL wikitext.data "<onlyinclude>".data with
    | some ab => ((pySplitOnceL ab.2 "</onlyinclude>".data).map fun cd => cd.1).getD ab.2
    | none => wikitext.data
  (((splitOnSub "\n|- ".data wl).drop 1)).map String.mk

/-- The line loop of `_split_cells`: a `|` line flushes the current cell
and starts a new one from its stripped tail; other lines are stripped and
appended to the current cell after a space. -/
def splitCellsGo : List (List Char) → List Char → List (List Char)
  | [], current => if current = [] then [] else [current]
  | line :: rest, current =>
    match line with
    | '|' :: lineTail =>
      (if current = [] then [] else [current]) ++ splitCellsGo rest (pyStripL lineTail)
    | _ => splitCellsGo rest (current ++ ' ' :: pyStripL line)

/-- `_split_cells(row)`: split into lines, skip the row-attribute line,
and run the cell loop. -/
def _split_cells (row : String) : List String :=
  (splitCellsGo ((splitOnChar '\n' row.data).drop 1) []).map String.mk

/-- A template as `parse_row` consumes it: the `strip_code()` text of each
parameter value (`mwparserfromhell` itself is third-party and left
abstract). -/
structure MWTemplate where
  paramStripped : List String
deriving Repr, DecidableEq

/-- The slice of `mwparserfromhell` behaviour `parse_row` depends on:
`parse(s).strip_code()` and `parse(s).filter_templates()`.  Theorems
quantify over this model, so they hold for any behaviour of the library. -/
structure MWParserModel where
  stripCode : String → String
  templates : String → List MWTemplate

/-- `parse_row(row)`: split the row into cells, reject rows with fewer
than five cells with `ValueError`, and build a `SourceEntry` from cells
0 (name), 1 (status template) and 4 (notes).  `params[0]` on a
parameterless template raises `IndexError`. -/
def parse_row (mw : MWParserModel) (row : String) : Except PyError SourceEntry :=
  let cells := _split_cells row
  if h : cells.length < 5 then .error .valueError
  else
    let source_name := pyStrip (mw.stripCode (cells.get ⟨0, by omega⟩))
    let tmpls := mw.templates (cells.get ⟨1, by omega⟩)
    let notes := pyStrip (mw.stripCode (cells.get ⟨4, by omega⟩))
    match tmpls with
    | [] => .ok { source_name, reliability_status := none, notes := some notes }
    | t :: _ =>
      match t.paramStripped with
      | [] => .error .indexError
      | p :: _ =>
        .ok { source_name, reliability_status := some (pyStrip p), notes := some notes }

/-- The row loop of `fetch_all`: `try: entries.append(parse_row(raw))
except Exception: continue` — a failing row is skipped, the rest proceed. -/
def fetchAllGo (mw : MWParserModel) : List String → List SourceEntry → List SourceEntry
  | [], acc => acc
  | raw :: rest, acc =>
    match parse_row mw raw with
    | .ok e => fetchAllGo mw rest (acc ++ [e])
    | .error _ => fetchAllGo mw rest acc

/-- `fetch_all()`: parse the rows of subpages 1–8.  `wikitextOf i` stands
for the wikitext `fetch_subpage` returned for subpage `i` (the HTTP step
is modelled separately by `fetch_subpage`). -/
def fetch_all (mw : MWParserModel) (wikitextOf : Nat → String) : List SourceEntry :=
  (List.range' 1 8).foldl
    (fun acc i => fetchAllGo mw (extract_rows (wikitextOf i)) acc) []

end Perennial

/-! ## HTTP fetching (`fetch_articles.py`, `fetch_wikitext.py`,
`fetch_subpage`)

Requests are modelled by passing the response the server returns; for the
pagination loop of `_fetch_category_members`, the list of successive
responses.  `response.raise_for_status()` raises for status codes
400–599. -/

namespace Fetch

/-- `raise_for_status` raises exactly for `400 <= status < 600`. -/
def isHTTPError (status : Nat) : Bool := 400 ≤ status ∧ status < 600

/-- One member object of a `categorymembers` response (`m.get("ns")` is
`None` when absent, which never equals `0`). -/
structure CMMember where
  ns : Option Int := none
  title : String
deriving Repr, DecidableEq

/-- One JSON response of the `_fetch_category_members` loop:
`data.get("query", {}).get("categorymembers", [])` and
`data.get("continue")` (a present `continue` object may be empty). -/
structure CMResponse where
  status : Nat
  members : List CMMember := []
  cont : Option (List (String × String)) := none
deriving Repr, DecidableEq

/-- `params[k] = v` on an insertion-ordered dict. -/
def dictSet : List (String × String) → String → String → List (String × String)
  | [], k, v => [(k, v)]
  | (q, w) :: rest, k, v =>
    if q = k then (q, v) :: rest else (q, w) :: dictSet rest k v

/-- `params.update(cont)`. -/
def dictUpdate (d kvs : List (String × String)) : List (String × String) :=
  kvs.foldl (fun d kv => dictSet d kv.1 kv.2) d

/-- The initial request params of `_fetch_category_members`. -/
def cmInitParams (category : String) : List (String × String) :=
  [("action", "query"), ("list", "categorymembers"),
   ("cmtitle", "Category:" ++ category), ("cmlimit", "max"),
   ("format", "json")]

/-- The titles a response contributes:
`m["title"] for m in members if m.get("ns") == 0`. -/
def ns0Titles (r : CMResponse) : List String :=
  (r.members.filter fun m => m.ns = some 0).map fun m => m.title

/-- `if not cont: break` — the loop stops when `continue` is absent
or an empty (falsy) object. -/
def contFalsy : Option (List (String × String)) → Bool
  | none => true
  | some kvs => kvs = []

/-- The `while True` loop of `_fetch_category_members`, with an explicit
request log (one entry per issued request).  Running out of modelled
responses while the loop still wants to continue is reported as
`responsesExhausted`. -/
def fetchCMGo : List CMResponse → List (String × String) → List String →
    List (List (String × String)) →
    Except PyError (List String) × List (List (String × String))
  | [], params, _, log => (.error .responsesExhausted, log ++ [params])
  | r :: rest, params, titles, log =>
    let log2 := log ++ [params]
    if isHTTPError r.status then (.error .httpError, log2)
    else
      let titles2 := titles ++ ns0Titles r
      if contFalsy r.cont then (.ok titles2, log2)
      else fetchCMGo rest (dictUpdate params (r.cont.getD [])) titles2 log2

/-- `_fetch_category_members(category)` from `core/fetch_articles.py`,
applied to the successive responses the API returns; also yields the
request log. -/
def _fetch_category_members (category : String) (responses : List CMResponse) :
    Except PyError (List String) × List (List (String × String)) :=
  fetchCMGo responses (cmInitParams category) [] []

/-- Accumulator-free reference recursion for the category-members loop:
consume responses, collecting `ns == 0` titles, issue the next request
with the continuation-updated params, and stop on a falsy `continue`. -/
def cmRef (params : List (String × String)) : List CMResponse →
    Except PyError (List String) × List (List (String × String))
  | [] => (.error .responsesExhausted, [params])
  | r :: rest =>
    if isHTTPError r.status then (.error .httpError, [params])
    else if contFalsy r.cont then (.ok (ns0Titles r), [params])
    else
      let next := cmRef (dictUpdate params (r.cont.getD [])) rest
      (next.1.map (fun ts => ns0Titles r ++ ts), params :: next.2)

/-- The behaviour the claim wording ascribes to the loop: stop exactly
when the response lacks a `continue` key (so a present-but-empty
`continue` object would make it continue). -/
def cmClaimedRef (params : List (String × String)) : List CMResponse →
    Except PyError (List String) × List (List (String × String))
  | [] => (.error .responsesExhausted, [params])
  | r :: rest =>
    if isHTTPError r.status then (.error .httpError, [params])
    else
      match r.cont with
      | none => (.ok (ns0Titles r), [params])
      | some kvs =>
        let next := cmClaimedRef (dictUpdate params kvs) rest
        (next.1.map (fun ts => ns0Titles r ++ ts), params :: next.2)

/-- One revision object of a `fetch_subpage` response (`rev["*"]` raises
`KeyError` when the key is absent). -/
structure RevisionV1 where
  star : Option String := none
deriving Repr, DecidableEq

/-- One page object of a `fetch_subpage` response. -/
structure PageV1 where
  revisions : Option (List RevisionV1) := none
deriving Repr, DecidableEq

/-- A `fetch_subpage` response: the values of
`data.get("query", {}).get("pages", {})` in dict order. -/
structure QueryPagesV1 where
  status : Nat
  pages : List PageV1 := []
deriving Repr, DecidableEq

/-- `fetch_subpage(title)` from `scripts/fetch_perennial_sources.py`,
applied to the response the API returns.  `next(iter({}.values()))`
raises `StopIteration`; `page.get("revisions", [])[0]` raises
`IndexError` on an empty list; `[0]["*"]` raises `KeyError`. -/
def fetch_subpage (resp : QueryPagesV1) : Except PyError String :=
  if isHTTPError resp.status then .error .httpError
  else
    match resp.pages with
    | [] => .error .stopIteration
    | page :: _ =>
      match page.revisions with
      | none => .ok ""
      | some [] => .error .indexError
      | some (rv :: _) =>
        match rv.star with
        | some content => .ok content
        | none => .error .keyError

/-- The `"main"` slot object of a formatversion-2 revision. -/
structure MainSlotV2 where
  content : Option String := none
deriving Repr, DecidableEq

/-- The `slots` object of a formatversion-2 revision. -/
structure SlotsV2 where
  main : Option MainSlotV2 := none
deriving Repr, DecidableEq

/-- One revision object of a `_fetch_single` response. -/
structure RevisionV2 where
  slots : Option SlotsV2 := none
deriving Repr, DecidableEq

/-- One page object of a `_fetch_single` response. -/
structure PageV2 where
  revisions : Option (List RevisionV2) := none
deriving Repr, DecidableEq

/-- A `_fetch_single` response: `data.get("query", {}).get("pages", [])`
(a list under `formatversion=2`). -/
structure QueryPagesV2 where
  status : Nat
  pages : List PageV2 := []
deriving Repr, DecidableEq

/-- `_fetch_single(title)` from `src/src/fetch_wikitext.py`, applied to the
response the API returns: empty pages or a page without revisions yield
`""`; otherwise `pages[0]["revisions"][0]["slots"]["main"].get("content",
"")` with the corresponding `IndexError`/`KeyError` cases. -/
def _fetch_single (resp : QueryPagesV2) : Except PyError String :=
  if isHTTPError resp.status then .error .httpError
  else
    match resp.pages with
    | [] => .ok ""
    | p :: _ =>
      match p.revisions with
      | none => .ok ""
      | some [] => .error .indexError
      | some (rv :: _) =>
        match rv.slots with
        | none => .error .keyError
        | some sl =>
          match sl.main with
          | none => .error .keyError
          | some m => .ok (m.content.getD "")

end Fetch

/-! ## `update_checker.py` -/

namespace UpdateChecker

/-- `BASE_TITLE` from `fetch_perennial_sources.py`. -/
def BASE_TITLE : String := "Wikipedia:Reliable_sources/Perennial_sources"

/-- The eight subpage titles `main` checks (`range(1, 9)`). -/
def REV_TITLES : List String :=
  (List.range' 1 8).map fun i => BASE_TITLE ++ "/" ++ toString i

/-- JSON-object lookup (`prev_ids.get(title)`). -/
def plookup : List (String × Int) → String → Option Int
  | [], _ => none
  | (q, v) :: rest, k => if q = k then some v else plookup rest k

/-- The observable outcome of one `main()` run: what is printed, whether
the JSON/CSV outputs are regenerated and with which entries, and what
`revision_ids.json` is rewritten to. -/
structure MainOutcome where
  printed : String
  wroteOutputs : Bool
  written : Option (List Perennial.SourceEntry) := none
  savedIds : Option (List (String × Int)) := none
deriving Repr, DecidableEq

/-- `main()` from `scripts/update_checker.py`.  `prevFile` is the parsed
contents of `revision_ids.json` (or `none` when the file is absent, in
which case `load_revision_ids` returns `{}`); `revOf` gives the revision
id each successful `fetch_revision_id` call observes; `mw` and
`wikitextOf` feed the `fetch_all` step as in `Perennial.fetch_all`.
When no subpage's fetched id differs from the stored one, `main` prints
and returns without fetching or writing; otherwise it refetches, cleans,
validates (exceptions propagate), rewrites the outputs and saves the new
ids. -/
def update_main (prevFile : Option (List (String × Int))) (revOf : String → Int)
    (mw : Perennial.MWParserModel) (wikitextOf : Nat → String) :
    Except PyError MainOutcome :=
  let prev_ids := prevFile.getD []
  let new_ids := REV_TITLES.map fun t => (t, revOf t)
  let changed := REV_TITLES.any fun t => ¬ plookup prev_ids t = some (revOf t)
  if ¬ changed then .ok { printed := "No updates detected.", wroteOutputs := false }
  else
    let entries := Perennial.clean_entries (Perennial.fetch_all mw wikitextOf)
    (Perennial.validate_entries entries).map fun _ =>
      { printed := "Fetched " ++ toString entries.length ++ " sources"
        wroteOutputs := true
        written := some entries
        savedIds := some new_ids }

end UpdateChecker

/-! ## Derived quantities used to state the URL claims -/

/-- The host component `SrcNorm.canonicalize_url` embeds in its output
under `DEFAULT_CONFIG` (www-strip, then subdomain-strip, then the final
lowercasing), or `none` when parsing raises. -/
def defaultCanonHost (u : String) : Option (List Char) :=
  match pyUrlparseL u.data with
  | .ok p =>
    let h0 := hostnameOrEmptyL p.netloc
    let h1 := if h0.take 4 = "www.".data then h0.drop 4 else h0
    some (pyLower (SrcNorm.strip_subdomain h1))
  | .error _ => none

/-! ## Theorems -/

/-- The category-members loop with accumulators computes what the
accumulator-free reference recursion describes. -/
theorem fetchCMGo_eq (rs : List Fetch.CMResponse) :
    ∀ (params : List (String × String)) (titles : List String)
      (log : List (List (String × String))),
      Fetch.fetchCMGo rs params titles log =
        ((Fetch.cmRef params rs).1.map (titles ++ ·),
          log ++ (Fetch.cmRef params rs).2) := by
  induction rs with
  | nil =>
    intro params titles log
    simp [Fetch.fetchCMGo, Fetch.cmRef, Except.map]
  | cons r rest ih =>
    intro params titles log
    by_cases herr : Fetch.isHTTPError r.status = true
    · simp [Fetch.fetchCMGo, Fetch.cmRef, herr, Except.map]
    · by_cases hstop : Fetch.contFalsy r.cont = true
      · simp [Fetch.fetchCMGo, Fetch.cmRef, herr, hstop, Except.map]
      · rw [show Fetch.fetchCMGo (r :: rest) params titles log =
              Fetch.fetchCMGo rest (Fetch.dictUpdate params (r.cont.getD []))
                (titles ++ Fetch.ns0Titles r) (log ++ [params]) by
            simp [Fetch.fetchCMGo, herr, hstop]]
        rw [ih]
        rw [show Fetch.cmRef params (r :: rest) =
              ((Fetch.cmRef (Fetch.dictUpdate params (r.cont.getD [])) rest).1.map
                  (fun ts => Fetch.ns0Titles r ++ ts),
                params :: (Fetch.cmRef (Fetch.dictUpdate params (r.cont.getD [])) rest).2) by
            simp [Fetch.cmRef, herr, hstop]]
        cases (Fetch.cmRef (Fetch.dictUpdate params (r.cont.getD [])) rest).1 with
        | error e => simp [Except.map]
        | ok ts => simp [Except.map]

/-- C6 (amended): `_fetch_category_members` collects exactly the `ns == 0`
titles of the consumed responses in API order, issuing each follow-up
request with the continuation-updated params, and stops exactly when a
response's `continue` value is absent or empty (the falsy check of
`if not cont`).  This is the statement that it equals the reference
recursion `cmRef` started from the initial params. -/
theorem fetch_category_members_spec (category : String)
    (responses : List Fetch.CMResponse) :
    Fetch._fetch_category_members category responses =
      Fetch.cmRef (Fetch.cmInitParams category) responses := by
  rw [Fetch._fetch_category_members, fetchCMGo_eq]
  rcases hcm : Fetch.cmRef (Fetch.cmInitParams category) responses with ⟨res, lg⟩
  cases res <;> simp [Except.map]

/-- C6 (counterexample): on a response whose `continue` key is present but
empty, the loop stops (returning only the first page's titles), while the
claimed stop-only-when-the-key-is-absent behaviour (`cmClaimedRef`) would
continue to the second response. -/
theorem fetch_category_members_empty_continue :
    Fetch._fetch_category_members "Good articles"
        [{ status := 200, members := [{ ns := some 0, title := "A" }], cont := some [] },
         { status := 200, members := [{ ns := some 0, title := "B" }] }] ≠
      Fetch.cmClaimedRef (Fetch.cmInitParams "Good articles")
        [{ status := 200, members := [{ ns := some 0, title := "A" }], cont := some [] },
         { status := 200, members := [{ ns := some 0, title := "B" }] }] ∧
    (Fetch._fetch_category_members "Good articles"
        [{ status := 200, members := [{ ns := some 0, title := "A" }], cont := some [] },
         { status := 200, members := [{ ns := some 0, title := "B" }] }]).1 =
      .ok ["A"] := by
  constructor
  · decide
  · decide

/-- C5: whenever the HTTP response has an error status (400–599), each
fetching function returns the raised `HTTPError` immediately: no retry is
issued (the category loop's request log holds exactly the one failed
request; `fetch_subpage` and `_fetch_single` issue a single request by
construction) and no fallback value is returned. -/
theorem fetch_raises_on_http_error :
    (∀ resp : Fetch.QueryPagesV1, Fetch.isHTTPError resp.status = true →
      Fetch.fetch_subpage resp = .error .httpError) ∧
    (∀ resp : Fetch.QueryPagesV2, Fetch.isHTTPError resp.status = true →
      Fetch._fetch_single resp = .error .httpError) ∧
    (∀ (category : String) (r : Fetch.CMResponse) (rest : List Fetch.CMResponse),
      Fetch.isHTTPError r.status = true →
      Fetch._fetch_category_members category (r :: rest) =
        (.error .httpError, [Fetch.cmInitParams category])) := by
  refine ⟨?_, ?_, ?_⟩
  · intro resp h
    simp [Fetch.fetch_subpage, h]
  · intro resp h
    simp [Fetch._fetch_single, h]
  · intro category r rest h
    simp [Fetch._fetch_category_members, Fetch.fetchCMGo, h]

/-- C5 (witness): a 404 categorymembers response, a 500 wikitext response
and a 403 subpage response each fail immediately. -/
theorem fetch_raises_on_http_error_witness :
    Fetch.fetch_subpage { status := 403 } = .error .httpError ∧
    Fetch._fetch_single { status := 500 } = .error .httpError ∧
    Fetch._fetch_category_members "Good articles" [{ status := 404 }] =
      (.error .httpError, [Fetch.cmInitParams "Good articles"]) :=
  ⟨fetch_raises_on_http_error.1 { status := 403 } (by decide),
   fetch_raises_on_http_error.2.1 { status := 500 } (by decide),
   fetch_raises_on_http_error.2.2 "Good articles" { status := 404 } [] (by decide)⟩

/-- The row loop of `fetch_all` appends exactly the successfully parsed
rows. -/
theorem fetchAllGo_eq (mw : Perennial.MWParserModel) :
    ∀ (rows : List String) (acc : List Perennial.SourceEntry),
      Perennial.fetchAllGo mw rows acc =
        acc ++ rows.filterMap fun raw => (Perennial.parse_row mw raw).toOption := by
  intro rows
  induction rows with
  | nil => intro acc; simp [Perennial.fetchAllGo]
  | cons raw rest ih =>
    intro acc
    cases h : Perennial.parse_row mw raw with
    | ok e => simp [Perennial.fetchAllGo, h, ih, Except.toOption]
    | error err => simp [Perennial.fetchAllGo, h, ih, Except.toOption]

/-- C7: a wikitext row that splits into fewer than five cells makes
`parse_row` raise `ValueError`, and `fetch_all` catches any exception of
`parse_row` and skips only that row: its entries are exactly the
successfully parsed rows of all subpages, so a malformed row never
prevents the remaining rows and subpages from being parsed.  Quantified
over any behaviour `mw` of `mwparserfromhell` and any fetched wikitexts. -/
theorem parse_row_and_fetch_all_spec (mw : Perennial.MWParserModel)
    (wikitextOf : Nat → String) :
    (∀ row, (Perennial._split_cells row).length < 5 →
      Perennial.parse_row mw row = .error .valueError) ∧
    Perennial.fetch_all mw wikitextOf =
      (List.range' 1 8).flatMap fun i =>
        (Perennial.extract_rows (wikitextOf i)).filterMap fun raw =>
          (Perennial.parse_row mw raw).toOption := by
  constructor
  · intro row h
    simp [Perennial.parse_row, h]
  · have fold : ∀ (L : List Nat) (acc : List Perennial.SourceEntry),
        L.foldl (fun acc i =>
          Perennial.fetchAllGo mw (Perennial.extract_rows (wikitextOf i)) acc) acc =
          acc ++ L.flatMap fun i =>
            (Perennial.extract_rows (wikitextOf i)).filterMap fun raw =>
              (Perennial.parse_row mw raw).toOption := by
      intro L
      induction L with
      | nil => intro acc; simp
      | cons i rest ih =>
        intro acc
        simp only [List.foldl_cons]
        rw [ih, fetchAllGo_eq mw, List.flatMap_cons, List.append_assoc]
    simpa [Perennial.fetch_all] using fold (List.range' 1 8) []

/-- C7 (witness): the empty row splits into no cells and is rejected with
`ValueError`. -/
theorem parse_row_and_fetch_all_spec_witness :
    (Perennial._split_cells "").length < 5 ∧
    Perennial.parse_row ⟨id, fun _ => []⟩ "" = .error .valueError :=
  ⟨by decide,
   (parse_row_and_fetch_all_spec ⟨id, fun _ => []⟩ (fun _ => "")).1 "" (by decide)⟩

/-- C4 (counterexample): two `main` runs that observe identical API
responses (every subpage at revision id 1, identical page contents)
behave differently depending on `revision_ids.json`: with a stored file
matching the fetched ids the run prints "No updates detected." and writes
nothing, while with the file absent it refetches (here failing
validation on the empty table, another observable difference). -/
theorem update_checker_state_counterexample :
    UpdateChecker.update_main
        (some (UpdateChecker.REV_TITLES.map fun t => (t, (1 : Int))))
        (fun _ => 1) ⟨id, fun _ => []⟩ (fun _ => "") =
      .ok { printed := "No updates detected.", wroteOutputs := false } ∧
    UpdateChecker.update_main none (fun _ => 1) ⟨id, fun _ => []⟩ (fun _ => "") =
      .error .valueError ∧
    UpdateChecker.update_main
        (some (UpdateChecker.REV_TITLES.map fun t => (t, (1 : Int))))
        (fun _ => 1) ⟨id, fun _ => []⟩ (fun _ => "") ≠
      UpdateChecker.update_main none (fun _ => 1) ⟨id, fun _ => []⟩ (fun _ => "") :=
  ⟨by decide, by decide, by decide⟩

/-- C4 (amended): `update_checker.main` does maintain persistent state in
`revision_ids.json`: a run skips refetching (printing "No updates
detected." and writing nothing) exactly when the stored revision id of
every subpage equals the fetched one; otherwise it refetches and rewrites
the outputs, so runs with identical API responses but different stored
ids can behave differently. -/
theorem update_main_skip_iff (prevFile : Option (List (String × Int)))
    (revOf : String → Int) (mw : Perennial.MWParserModel)
    (wikitextOf : Nat → String) :
    UpdateChecker.update_main prevFile revOf mw wikitextOf =
        .ok { printed := "No updates detected.", wroteOutputs := false } ↔
      ∀ t ∈ UpdateChecker.REV_TITLES,
        UpdateChecker.plookup (prevFile.getD []) t = some (revOf t) := by
  unfold UpdateChecker.update_main
  dsimp only
  by_cases h : ∀ t ∈ UpdateChecker.REV_TITLES,
      UpdateChecker.plookup (prevFile.getD []) t = some (revOf t)
  · have hch : (UpdateChecker.REV_TITLES.any fun t =>
        ¬ UpdateChecker.plookup (prevFile.getD []) t = some (revOf t)) = false := by
      simp only [List.any_eq_false, decide_eq_true_eq]
      intro t ht
      simpa using h t ht
    rw [hch, if_pos (by simp)]
    exact iff_of_true rfl h
  · have hch : (UpdateChecker.REV_TITLES.any fun t =>
        ¬ UpdateChecker.plookup (prevFile.getD []) t = some (revOf t)) = true := by
      push_neg at h
      obtain ⟨t, ht, hne⟩ := h
      simp only [List.any_eq_true, decide_eq_true_eq]
      exact ⟨t, ht, hne⟩
    simp only [hch]
    rw [if_neg (by simp)]
    constructor
    · intro hcontra
      cases hv : Perennial.validate_entries
          (Perennial.clean_entries (Perennial.fetch_all mw wikitextOf)) with
      | error e => rw [hv] at hcontra; exact Except.noConfusion hcontra
      | ok u =>
        rw [hv] at hcontra
        simp only [Except.map] at hcontra
        have := Except.ok.inj hcontra
        simp [UpdateChecker.MainOutcome.mk.injEq] at this
    · intro hcontra
      exact absurd hcontra h

/-- C2: `rank_sources` sorts by `total_count` in descending order
(producing a prefix of a sorted permutation of the input) and truncates to
at most `limit` records; with the default limit it returns at most 50
records. -/
theorem rank_sources_spec (data : List CleanSources.SourceRecord) (limit : Nat) :
    (CleanSources.rank_sources data limit).length ≤ limit ∧
    List.Pairwise CleanSources.rankGE (CleanSources.rank_sources data limit) ∧
    (∃ full, full.Perm data ∧ List.Pairwise CleanSources.rankGE full ∧
      CleanSources.rank_sources data limit = full.take limit) ∧
    (CleanSources.rank_sources data).length ≤ 50 := by
  refine ⟨List.length_take_le _ _,
    List.Pairwise.sublist (List.take_sublist _ _) ?_,
    ⟨List.insertionSort CleanSources.rankGE data,
      List.perm_insertionSort _ _, ?_, rfl⟩,
    List.length_take_le _ _⟩
  · exact List.sorted_insertionSort _ _
  · exact List.sorted_insertionSort _ _

/-- C8: the two `canonicalize_url` implementations (the `src/src/utils`
copy and the `src/core/utils` copy) return identical results for every
URL when each is called with its own default `NormalizationConfig` (no
aliases): under the defaults both drop the query and the path and apply
the same host reduction, so the differing query branches are dead. -/
theorem canonicalize_url_copies_agree (u : String) :
    SrcNorm.canonicalize_url u SrcNorm.DEFAULT_CONFIG =
      CoreNorm.canonicalize_url u CoreNorm.DEFAULT_CONFIG := rfl

/-- `dedupFirstBy` keeps a subsequence of its input. -/
theorem dedupFirstBy_sublist (f : Perennial.SourceEntry → String) :
    ∀ (n : Nat) (l : List Perennial.SourceEntry), l.length ≤ n →
      (Perennial.dedupFirstBy f l).Sublist l
  | _, [], _ => by simp [Perennial.dedupFirstBy]
  | 0, e :: rest, h => by simp at h
  | n + 1, e :: rest, h => by
    rw [Perennial.dedupFirstBy]
    refine List.Sublist.cons₂ e ?_
    exact (dedupFirstBy_sublist f n _ (le_trans (List.length_filter_le _ _)
      (Nat.le_of_succ_le_succ h))).trans (List.filter_sublist rest)

/-- The keys of a `dedupFirstBy` result are pairwise distinct. -/
theorem dedupFirstBy_key_nodup (f : Perennial.SourceEntry → String) :
    ∀ (n : Nat) (l : List Perennial.SourceEntry), l.length ≤ n →
      ((Perennial.dedupFirstBy f l).map f).Nodup
  | _, [], _ => by simp [Perennial.dedupFirstBy]
  | 0, e :: rest, h => by simp at h
  | n + 1, e :: rest, h => by
    rw [Perennial.dedupFirstBy]
    simp only [List.map_cons, List.nodup_cons]
    constructor
    · intro hmem
      obtain ⟨x, hx, hfx⟩ := List.mem_map.mp hmem
      have hx2 : x ∈ rest.filter fun y => decide (¬ f y = f e) :=
        (dedupFirstBy_sublist f _ _ le_rfl).subset hx
      have := (List.mem_filter.mp hx2).2
      rw [decide_eq_true_eq] at this
      exact this hfx
    · exact dedupFirstBy_key_nodup f n _ (le_trans (List.length_filter_le _ _)
        (Nat.le_of_succ_le_succ h))

/-- Every element of the input is represented in `dedupFirstBy` by an
entry with the same key. -/
theorem dedupFirstBy_covers (f : Perennial.SourceEntry → String) :
    ∀ (n : Nat) (l : List Perennial.SourceEntry), l.length ≤ n →
      ∀ x ∈ l, ∃ d ∈ Perennial.dedupFirstBy f l, f d = f x
  | _, [], _ => by simp
  | 0, e :: rest, h => by simp at h
  | n + 1, e :: rest, h => by
    intro x hx
    rw [Perennial.dedupFirstBy]
    rcases List.mem_cons.mp hx with rfl | hx2
    · exact ⟨x, List.mem_cons_self _ _, rfl⟩
    · by_cases hfe : f x = f e
      · exact ⟨e, List.mem_cons_self _ _, hfe.symm⟩
      · have hx3 : x ∈ rest.filter fun y => decide (¬ f y = f e) :=
          List.mem_filter.mpr ⟨hx2, by simpa using hfe⟩
        obtain ⟨d, hd, hdf⟩ := dedupFirstBy_covers f n _
          (le_trans (List.length_filter_le _ _) (Nat.le_of_succ_le_succ h)) x hx3
        exact ⟨d, List.mem_cons_of_mem _ hd, hdf⟩

/-- The `clean_entries` loop with its `seen` set computes the
filter-style first-occurrence deduplication of the remaining entries. -/
theorem cleanEntriesGo_eq (l : List Perennial.SourceEntry) :
    ∀ seen : List String, Perennial.cleanEntriesGo l seen =
      Perennial.dedupFirstBy (fun e => pyLowerS e.source_name)
        ((l.map Perennial.cleanOne).filter
          fun x => decide (¬ pyLowerS x.source_name ∈ seen)) := by
  induction l with
  | nil => intro seen; simp [Perennial.cleanEntriesGo, Perennial.dedupFirstBy]
  | cons e rest ih =>
    intro seen
    by_cases hk : pyLowerS (Perennial.cleanOne e).source_name ∈ seen
    · rw [show Perennial.cleanEntriesGo (e :: rest) seen =
          Perennial.cleanEntriesGo rest seen by
        simp [Perennial.cleanEntriesGo, hk]]
      rw [ih]
      congr 1
      rw [List.map_cons, List.filter_cons]
      simp [hk]
    · rw [show Perennial.cleanEntriesGo (e :: rest) seen =
          Perennial.cleanOne e :: Perennial.cleanEntriesGo rest
            (pyLowerS (Perennial.cleanOne e).source_name :: seen) by
        simp [Perennial.cleanEntriesGo, hk]]
      rw [ih]
      rw [List.map_cons, List.filter_cons]
      rw [if_pos (by simpa using hk)]
      rw [Perennial.dedupFirstBy]
      congr 1
      rw [List.filter_filter]
      congr 1
      apply List.filter_congr
      intro x _
      by_cases h1 : pyLowerS x.source_name = pyLowerS (Perennial.cleanOne e).source_name <;>
        by_cases h2 : pyLowerS x.source_name ∈ seen <;>
          simp [h1, h2]

/-- C3: `clean_entries` applies the per-entry normalization `cleanOne`
(strip sort metadata and whitespace from the name; map a truthy
reliability status case-insensitively through `STATUS_MAP`, leaving
unmapped statuses lowercased) to every entry, and keeps exactly the first
occurrence of each case-insensitively-distinct cleaned source name,
preserving input order: the result is the first-occurrence deduplication
of the normalized list, an order-preserving subsequence whose lowercased
names are pairwise distinct and which still represents every input
entry. -/
theorem clean_entries_spec (entries : List Perennial.SourceEntry) :
    Perennial.clean_entries entries =
      Perennial.dedupFirstBy (fun e => pyLowerS e.source_name)
        (entries.map Perennial.cleanOne) ∧
    ((Perennial.clean_entries entries).map fun e => pyLowerS e.source_name).Nodup ∧
    (Perennial.clean_entries entries).Sublist (entries.map Perennial.cleanOne) ∧
    ∀ e ∈ entries, ∃ d ∈ Perennial.clean_entries entries,
      pyLowerS d.source_name = pyLowerS (Perennial.cleanOne e).source_name := by
  have key : Perennial.clean_entries entries =
      Perennial.dedupFirstBy (fun e => pyLowerS e.source_name)
        (entries.map Perennial.cleanOne) := by
    rw [Perennial.clean_entries, cleanEntriesGo_eq]
    congr 1
    rw [List.filter_eq_self.mpr]
    intro x _
    simp
  refine ⟨key, ?_, ?_, ?_⟩
  · rw [key]
    exact dedupFirstBy_key_nodup _ (entries.map Perennial.cleanOne).length _ le_rfl
  · rw [key]
    exact dedupFirstBy_sublist _ (entries.map Perennial.cleanOne).length _ le_rfl
  · intro e he
    rw [key]
    obtain ⟨d, hd, hdf⟩ := dedupFirstBy_covers (fun e => pyLowerS e.source_name)
      (entries.map Perennial.cleanOne).length _ le_rfl
      (Perennial.cleanOne e) (List.mem_map_of_mem _ he)
    exact ⟨d, hd, hdf⟩

/-- Bumping a counter key: the bumped key gains one, others are
untouched. -/
theorem clookup_counterAdd (l : List (String × Nat)) (k j : String) :
    CleanSources.clookup (CleanSources.counterAdd l k) j =
      if j = k then CleanSources.clookup l j + 1 else CleanSources.clookup l j := by
  induction l with
  | nil =>
    by_cases h : j = k
    · subst h; simp [CleanSources.counterAdd, CleanSources.clookup]
    · have h2 : ¬ k = j := fun hh => h hh.symm
      simp [CleanSources.counterAdd, CleanSources.clookup, h, h2]
  | cons p rest ih =>
    obtain ⟨q, n⟩ := p
    by_cases hq : q = k
    · subst hq
      by_cases hj : q = j
      · subst hj
        simp [CleanSources.counterAdd, CleanSources.clookup]
      · have hjq : ¬ j = q := fun hh => hj hh.symm
        simp [CleanSources.counterAdd, CleanSources.clookup, hj, hjq]
    · by_cases hj : q = j
      · subst hj
        simp [CleanSources.counterAdd, CleanSources.clookup, hq]
      · simp [CleanSources.counterAdd, CleanSources.clookup, hq, hj, ih]

/-- Keys after a counter bump: unchanged when present, appended when
new. -/
theorem counterAdd_keys (l : List (String × Nat)) (k : String) :
    (CleanSources.counterAdd l k).map Prod.fst =
      if k ∈ l.map Prod.fst then l.map Prod.fst else l.map Prod.fst ++ [k] := by
  induction l with
  | nil => simp [CleanSources.counterAdd]
  | cons p rest ih =>
    obtain ⟨q, n⟩ := p
    by_cases hq : q = k
    · subst hq; simp [CleanSources.counterAdd]
    · have hkq : ¬ k = q := fun hh => hq hh.symm
      by_cases hm : k ∈ rest.map Prod.fst
      · simp [CleanSources.counterAdd, hq, ih, hm, hkq]
      · simp [CleanSources.counterAdd, hq, ih, hm, hkq]

/-- Folding the counter over a list of keys adds each key's
multiplicity. -/
theorem clookup_foldl (ks : List String) :
    ∀ (c0 : List (String × Nat)) (j : String),
      CleanSources.clookup (ks.foldl CleanSources.counterAdd c0) j =
        CleanSources.clookup c0 j + ks.count j := by
  induction ks with
  | nil => intro c0 j; simp
  | cons k rest ih =>
    intro c0 j
    rw [List.foldl_cons, ih, clookup_counterAdd, List.count_cons]
    split_ifs with hj <;> simp_all [beq_iff_eq]
    omega

/-- A key is in the folded counter iff it was there initially or occurs
in the key list. -/
theorem mem_keys_foldl (ks : List String) :
    ∀ (c0 : List (String × Nat)) (j : String),
      j ∈ (ks.foldl CleanSources.counterAdd c0).map Prod.fst ↔
        j ∈ c0.map Prod.fst ∨ j ∈ ks := by
  induction ks with
  | nil => intro c0 j; simp
  | cons k rest ih =>
    intro c0 j
    rw [List.foldl_cons, ih, counterAdd_keys]
    split_ifs with hk
    · constructor
      · intro h; rcases h with h | h
        · exact Or.inl h
        · exact Or.inr (List.mem_cons_of_mem _ h)
      · intro h; rcases h with h | h
        · exact Or.inl h
        · rcases List.mem_cons.mp h with rfl | h2
          · exact Or.inl hk
          · exact Or.inr h2
    · rw [List.mem_append]
      constructor
      · intro h; rcases h with (h | h) | h
        · exact Or.inl h
        · exact Or.inr (by simpa using Or.inl (List.mem_singleton.mp h))
        · exact Or.inr (List.mem_cons_of_mem _ h)
      · intro h; rcases h with h | h
        · exact Or.inl (Or.inl h)
        · rcases List.mem_cons.mp h with rfl | h2
          · exact Or.inl (Or.inr (List.mem_singleton.mpr rfl))
          · exact Or.inr h2

/-- The folded counter has pairwise-distinct keys when the initial one
does. -/
theorem keys_foldl_nodup (ks : List String) :
    ∀ c0 : List (String × Nat), (c0.map Prod.fst).Nodup →
      ((ks.foldl CleanSources.counterAdd c0).map Prod.fst).Nodup := by
  induction ks with
  | nil => intro c0 h; simpa using h
  | cons k rest ih =>
    intro c0 h
    rw [List.foldl_cons]
    refine ih _ ?_
    rw [counterAdd_keys]
    split_ifs with hk
    · exact h
    · exact List.nodup_append.mpr ⟨h, List.nodup_singleton k,
        fun a ha hb => hk ((List.mem_singleton.mp hb) ▸ ha)⟩

/-- In a counter with pairwise-distinct keys, lookup of a stored key
returns its stored value. -/
theorem clookup_of_mem :
    ∀ (l : List (String × Nat)), (l.map Prod.fst).Nodup →
      ∀ p ∈ l, CleanSources.clookup l p.1 = p.2 := by
  intro l
  induction l with
  | nil => intro _ p hp; simp at hp
  | cons q rest ih =>
    intro hnd p hp
    obtain ⟨qk, qn⟩ := q
    obtain ⟨pk, pn⟩ := p
    simp only [List.map_cons, List.nodup_cons] at hnd
    rcases List.mem_cons.mp hp with heq | hp2
    · cases heq
      simp [CleanSources.clookup]
    · show CleanSources.clookup ((qk, qn) :: rest) pk = pn
      simp only [CleanSources.clookup]
      split_ifs with hq
      · subst hq
        exact absurd (by simpa using List.mem_map_of_mem Prod.fst hp2) hnd.1
      · exact ih hnd.2 (pk, pn) hp2

/-- Each counter bump increases the total count by exactly one. -/
theorem counterAdd_sum (l : List (String × Nat)) (k : String) :
    ((CleanSources.counterAdd l k).map Prod.snd).sum =
      (l.map Prod.snd).sum + 1 := by
  induction l with
  | nil => simp [CleanSources.counterAdd]
  | cons p rest ih =>
    obtain ⟨q, n⟩ := p
    by_cases hq : q = k
    · simp only [CleanSources.counterAdd, if_pos hq, List.map_cons, List.sum_cons]
      omega
    · simp only [CleanSources.counterAdd, if_neg hq, List.map_cons, List.sum_cons, ih]
      omega

/-- The monadic `clean_refs` loop is the pure fold over refs zipped with
their canonical URLs, once every canonicalization succeeds. -/
theorem foldlM_refStep_eq (cfg : SrcNorm.NormalizationConfig) :
    ∀ (refs : List CleanSources.Ref) (cs : List String)
      (acc : List (String × Nat) × List (String × List String)),
      refs.mapM (fun r => SrcNorm.canonicalize_url (CleanSources.urlOf r) cfg) = .ok cs →
      refs.foldlM (CleanSources.refStep cfg) acc =
        .ok ((refs.zip cs).foldl CleanSources.pureStep acc) := by
  intro refs
  induction refs with
  | nil =>
    intro cs acc h
    simp only [List.mapM_nil, pure, Except.pure] at h
    cases h
    simp [List.foldlM_nil, pure, Except.pure]
  | cons r rest ih =>
    intro cs acc h
    rw [List.mapM_cons] at h
    cases hc : SrcNorm.canonicalize_url (CleanSources.urlOf r) cfg with
    | error e =>
      rw [hc] at h
      simp [Bind.bind, Except.bind] at h
    | ok c =>
      rw [hc] at h
      cases hrest : rest.mapM
          (fun r => SrcNorm.canonicalize_url (CleanSources.urlOf r) cfg) with
      | error e =>
        rw [hrest] at h
        simp [Bind.bind, Except.bind, pure, Except.pure] at h
      | ok cs2 =>
        rw [hrest] at h
        simp only [Bind.bind, Except.bind, pure, Except.pure] at h
        cases h
        rw [List.foldlM_cons]
        rw [show CleanSources.refStep cfg acc r =
            .ok (CleanSources.pureStep acc (r, c)) by
          simp [CleanSources.refStep, hc, CleanSources.pureStep, Except.map]]
        show rest.foldlM (CleanSources.refStep cfg) (CleanSources.pureStep acc (r, c)) =
          _
        rw [ih cs2 _ hrest]
        simp [List.zip]

/-- A successful `mapM` preserves length. -/
theorem mapM_ok_length (cfg : SrcNorm.NormalizationConfig) :
    ∀ (refs : List CleanSources.Ref) (cs : List String),
      refs.mapM (fun r => SrcNorm.canonicalize_url (CleanSources.urlOf r) cfg) = .ok cs →
      cs.length = refs.length := by
  intro refs
  induction refs with
  | nil =>
    intro cs h
    simp only [List.mapM_nil, pure, Except.pure] at h
    cases h; rfl
  | cons r rest ih =>
    intro cs h
    rw [List.mapM_cons] at h
    cases hc : SrcNorm.canonicalize_url (CleanSources.urlOf r) cfg with
    | error e => rw [hc] at h; simp [Bind.bind, Except.bind] at h
    | ok c =>
      rw [hc] at h
      cases hrest : rest.mapM
          (fun r => SrcNorm.canonicalize_url (CleanSources.urlOf r) cfg) with
      | error e => rw [hrest] at h; simp [Bind.bind, Except.bind, pure, Except.pure] at h
      | ok cs2 =>
        rw [hrest] at h
        simp only [Bind.bind, Except.bind, pure, Except.pure] at h
        cases h
        simp [ih cs2 hrest]

/-- A `clean_refs` run that completes has a canonical URL for every ref. -/
theorem clean_refs_ok_mapM (cfg : SrcNorm.NormalizationConfig) :
    ∀ (refs : List CleanSources.Ref)
      (acc : List (String × Nat) × List (String × List String)) r,
      refs.foldlM (CleanSources.refStep cfg) acc = .ok r →
      ∃ cs, refs.mapM
        (fun x => SrcNorm.canonicalize_url (CleanSources.urlOf x) cfg) = .ok cs := by
  intro refs
  induction refs with
  | nil => intro acc r _; exact ⟨[], rfl⟩
  | cons x rest ih =>
    intro acc r h
    rw [List.foldlM_cons] at h
    cases hc : SrcNorm.canonicalize_url (CleanSources.urlOf x) cfg with
    | error e =>
      rw [show CleanSources.refStep cfg acc x = .error e by
        simp [CleanSources.refStep, hc, Except.map]] at h
      simp [Bind.bind, Except.bind] at h
    | ok c =>
      rw [show CleanSources.refStep cfg acc x =
          .ok (CleanSources.pureStep acc (x, c)) by
        simp [CleanSources.refStep, hc, CleanSources.pureStep, Except.map]] at h
      replace h : rest.foldlM (CleanSources.refStep cfg)
          (CleanSources.pureStep acc (x, c)) = .ok r := h
      obtain ⟨cs2, hcs2⟩ := ih _ _ h
      refine ⟨c :: cs2, ?_⟩
      rw [List.mapM_cons, hc, hcs2]
      rfl

/-- The counter component of the pure fold only depends on the canonical
URLs. -/
theorem pure_fold_fst (pairs : List (CleanSources.Ref × String)) :
    ∀ acc, ((pairs.foldl CleanSources.pureStep acc).1 =
      (pairs.map Prod.snd).foldl CleanSources.counterAdd acc.1) := by
  induction pairs with
  | nil => intro acc; rfl
  | cons rc rest ih =>
    intro acc
    rw [List.foldl_cons, ih, List.map_cons, List.foldl_cons]
    rfl

/-- The per-article component of the pure fold. -/
theorem pure_fold_snd (pairs : List (CleanSources.Ref × String)) :
    ∀ acc, ((pairs.foldl CleanSources.pureStep acc).2 =
      pairs.foldl CleanSources.upaStep acc.2) := by
  induction pairs with
  | nil => intro acc; rfl
  | cons rc rest ih =>
    intro acc
    rw [List.foldl_cons, ih, List.foldl_cons]
    rcases hart : CleanSources.articleOf rc.1 with _ | a <;>
      simp [CleanSources.pureStep, CleanSources.upaStep, hart]

/-- Membership in `setAdd`. -/
theorem mem_setAdd (s : List String) (k x : String) :
    x ∈ CleanSources.setAdd s k ↔ x ∈ s ∨ x = k := by
  unfold CleanSources.setAdd
  split_ifs with h
  · constructor
    · exact Or.inl
    · rintro (hx | rfl)
      · exact hx
      · exact h
  · simp

/-- Adding `k` to one article's set leaves the membership counts of other
sources unchanged. -/
theorem upaCount_upaAdd_ne (u : List (String × List String)) (a k x : String)
    (hx : ¬ x = k) :
    CleanSources.upaCount (CleanSources.upaAdd u a k) x = CleanSources.upaCount u x := by
  induction u with
  | nil =>
    simp [CleanSources.upaAdd, CleanSources.upaCount, List.countP_cons, hx]
  | cons q rest ih =>
    obtain ⟨qa, s⟩ := q
    by_cases hq : qa = a
    · simp only [CleanSources.upaAdd, if_pos hq, CleanSources.upaCount,
        List.countP_cons]
      have : (x ∈ CleanSources.setAdd s k) ↔ x ∈ s := by
        rw [mem_setAdd]
        exact or_iff_left hx
      simp [this]
    · simp only [CleanSources.upaAdd, if_neg hq, CleanSources.upaCount,
        List.countP_cons] at ih ⊢
      simp [ih]

/-- Adding `k` to one article's set raises the membership count of `k` by
at most one. -/
theorem upaCount_upaAdd_self (u : List (String × List String)) (a k : String) :
    CleanSources.upaCount (CleanSources.upaAdd u a k) k ≤
      CleanSources.upaCount u k + 1 := by
  induction u with
  | nil => simp [CleanSources.upaAdd, CleanSources.upaCount, List.countP_cons]
  | cons q rest ih =>
    obtain ⟨qa, s⟩ := q
    by_cases hq : qa = a
    · simp only [CleanSources.upaAdd, if_pos hq, CleanSources.upaCount,
        List.countP_cons]
      have hk : (k ∈ CleanSources.setAdd s k) := (mem_setAdd s k k).mpr (Or.inr rfl)
      simp only [hk, decide_True]
      split_ifs <;> omega
    · simp only [CleanSources.upaAdd, if_neg hq, CleanSources.upaCount,
        List.countP_cons] at ih ⊢
      split_ifs <;> omega

/-- Invariant: each source is a member of at most as many per-article
sets as its total count. -/
theorem upa_le_counter (pairs : List (CleanSources.Ref × String)) :
    ∀ (u0 : List (String × List String)) (c0 : List (String × Nat)),
      (∀ x, CleanSources.upaCount u0 x ≤ CleanSources.clookup c0 x) →
      ∀ x, CleanSources.upaCount (pairs.foldl CleanSources.upaStep u0) x ≤
        CleanSources.clookup
          ((pairs.map Prod.snd).foldl CleanSources.counterAdd c0) x := by
  induction pairs with
  | nil => intro u0 c0 h x; exact h x
  | cons rc rest ih =>
    intro u0 c0 h x
    rw [List.foldl_cons, List.map_cons, List.foldl_cons]
    refine ih _ _ ?_ x
    intro y
    rw [clookup_counterAdd]
    rcases hart : CleanSources.articleOf rc.1 with _ | a
    · rw [show CleanSources.upaStep u0 rc = u0 by
        simp [CleanSources.upaStep, hart]]
      split_ifs with hcase
      · exact le_trans (h y) (Nat.le_succ _)
      · exact h y
    · rw [show CleanSources.upaStep u0 rc = CleanSources.upaAdd u0 a rc.2 by
        simp [CleanSources.upaStep, hart]]
      by_cases hy : y = rc.2
      · subst hy
        rw [if_pos rfl]
        exact le_trans (upaCount_upaAdd_self u0 a rc.2)
          (Nat.add_le_add_right (h rc.2) 1)
      · rw [if_neg hy, upaCount_upaAdd_ne u0 a rc.2 y hy]
        exact h y

/-- The folded counter's total equals the number of keys processed. -/
theorem sum_foldl (ks : List String) :
    ∀ c0 : List (String × Nat),
      ((ks.foldl CleanSources.counterAdd c0).map Prod.snd).sum =
        (c0.map Prod.snd).sum + ks.length := by
  induction ks with
  | nil => intro c0; simp
  | cons k rest ih =>
    intro c0
    rw [List.foldl_cons, ih, counterAdd_sum]
    simp only [List.length_cons]
    omega

/-- Keys after adding to an article's set: unchanged when the article is
present, appended when new. -/
theorem upaAdd_keys (u : List (String × List String)) (a k : String) :
    (CleanSources.upaAdd u a k).map Prod.fst =
      if a ∈ u.map Prod.fst then u.map Prod.fst else u.map Prod.fst ++ [a] := by
  induction u with
  | nil => simp [CleanSources.upaAdd]
  | cons q rest ih =>
    obtain ⟨qa, s⟩ := q
    by_cases hq : qa = a
    · subst hq; simp [CleanSources.upaAdd]
    · have haq : ¬ a = qa := fun hh => hq hh.symm
      by_cases hm : a ∈ rest.map Prod.fst
      · simp [CleanSources.upaAdd, hq, ih, hm, haq]
      · simp [CleanSources.upaAdd, hq, ih, hm, haq]

/-- Key membership after `upaAdd`. -/
theorem mem_upaAdd_keys (u : List (String × List String)) (a k x : String) :
    x ∈ (CleanSources.upaAdd u a k).map Prod.fst ↔
      x ∈ u.map Prod.fst ∨ x = a := by
  rw [upaAdd_keys]
  split_ifs with h
  · constructor
    · exact Or.inl
    · rintro (hx | rfl)
      · exact hx
      · exact h
  · simp

/-- The per-article map keeps pairwise-distinct keys. -/
theorem upa_keys_foldl_nodup (pairs : List (CleanSources.Ref × String)) :
    ∀ u0 : List (String × List String), (u0.map Prod.fst).Nodup →
      (((pairs.foldl CleanSources.upaStep u0).map Prod.fst)).Nodup := by
  induction pairs with
  | nil => intro u0 h; simpa using h
  | cons rc rest ih =>
    intro u0 h
    rw [List.foldl_cons]
    refine ih _ ?_
    rcases hart : CleanSources.articleOf rc.1 with _ | a
    · rw [show CleanSources.upaStep u0 rc = u0 by simp [CleanSources.upaStep, hart]]
      exact h
    · rw [show CleanSources.upaStep u0 rc = CleanSources.upaAdd u0 a rc.2 by
        simp [CleanSources.upaStep, hart]]
      rw [upaAdd_keys]
      split_ifs with hk
      · exact h
      · exact List.nodup_append.mpr ⟨h, List.nodup_singleton a,
          fun y hy hb => hk ((List.mem_singleton.mp hb) ▸ hy)⟩

/-- `upaAdd` updates the stored set of the touched article. -/
theorem upaGet_upaAdd_self (u : List (String × List String)) (a k : String) :
    CleanSources.upaGet (CleanSources.upaAdd u a k) a =
      CleanSources.setAdd (CleanSources.upaGet u a) k := by
  induction u with
  | nil => simp [CleanSources.upaAdd, CleanSources.upaGet, List.find?, CleanSources.setAdd]
  | cons q rest ih =>
    obtain ⟨qa, s⟩ := q
    by_cases hq : qa = a
    · subst hq
      simp [CleanSources.upaAdd, CleanSources.upaGet, List.find?]
    · simp only [CleanSources.upaAdd, if_neg hq]
      rw [show CleanSources.upaGet ((qa, s) :: CleanSources.upaAdd rest a k) a =
          CleanSources.upaGet (CleanSources.upaAdd rest a k) a by
        simp [CleanSources.upaGet, List.find?, hq]]
      rw [show CleanSources.upaGet ((qa, s) :: rest) a =
          CleanSources.upaGet rest a by
        simp [CleanSources.upaGet, List.find?, hq]]
      exact ih

/-- `upaAdd` leaves other articles' stored sets unchanged. -/
theorem upaGet_upaAdd_ne (u : List (String × List String)) (a k x : String)
    (hx : ¬ x = a) :
    CleanSources.upaGet (CleanSources.upaAdd u a k) x = CleanSources.upaGet u x := by
  induction u with
  | nil =>
    have : ¬ a = x := fun hh => hx hh.symm
    simp [CleanSources.upaAdd, CleanSources.upaGet, List.find?, this]
  | cons q rest ih =>
    obtain ⟨qa, s⟩ := q
    by_cases hq : qa = a
    · subst hq
      have hqx : ¬ qa = x := fun hh => hx hh.symm
      simp [CleanSources.upaAdd, CleanSources.upaGet, List.find?, hqx]
    · simp only [CleanSources.upaAdd, if_neg hq]
      by_cases hqx : qa = x
      · simp [CleanSources.upaGet, List.find?, hqx]
      · rw [show CleanSources.upaGet ((qa, s) :: CleanSources.upaAdd rest a k) x =
            CleanSources.upaGet (CleanSources.upaAdd rest a k) x by
          simp [CleanSources.upaGet, List.find?, hqx]]
        rw [show CleanSources.upaGet ((qa, s) :: rest) x =
            CleanSources.upaGet rest x by
          simp [CleanSources.upaGet, List.find?, hqx]]
        exact ih

/-- With pairwise-distinct keys, the membership count of a source is the
number of stored articles whose set contains it. -/
theorem upaCount_eq_filter_keys (u : List (String × List String)) :
    (u.map Prod.fst).Nodup → ∀ c,
      CleanSources.upaCount u c =
        ((u.map Prod.fst).filter fun a =>
          decide (c ∈ CleanSources.upaGet u a)).length := by
  induction u with
  | nil => intro _ c; rfl
  | cons q rest ih =>
    intro hnd c
    obtain ⟨qa, s⟩ := q
    simp only [List.map_cons, List.nodup_cons] at hnd
    have hget_head : CleanSources.upaGet ((qa, s) :: rest) qa = s := by
      simp [CleanSources.upaGet, List.find?]
    have hget_tail : ∀ x ∈ rest.map Prod.fst,
        CleanSources.upaGet ((qa, s) :: rest) x = CleanSources.upaGet rest x := by
      intro x hxm
      have hqx : ¬ qa = x := fun hh => hnd.1 (hh ▸ hxm)
      simp [CleanSources.upaGet, List.find?, hqx]
    rw [show CleanSources.upaCount ((qa, s) :: rest) c =
        CleanSources.upaCount rest c + (if c ∈ s then 1 else 0) by
      simp [CleanSources.upaCount, List.countP_cons]]
    rw [List.map_cons, List.filter_cons]
    rw [show (decide (c ∈ CleanSources.upaGet ((qa, s) :: rest) qa)) =
        decide (c ∈ s) by rw [hget_head]]
    rw [List.filter_congr (fun x hx => by
      rw [hget_tail x hx] :
      ∀ x ∈ rest.map Prod.fst,
        (decide (c ∈ CleanSources.upaGet ((qa, s) :: rest) x)) =
          (decide (c ∈ CleanSources.upaGet rest x)))]
    rw [ih hnd.2 c]
    by_cases hcs : c ∈ s
    · rw [if_pos hcs, if_pos (by simpa using hcs), List.length_cons]
    · rw [if_neg hcs, if_neg (by simpa using hcs)]
      simp

/-- Characterization of the folded per-article sets: a source is in an
article's set iff some processed pair cited it from that article. -/
theorem upaGet_foldl (pairs : List (CleanSources.Ref × String)) :
    ∀ (u0 : List (String × List String)) (a c : String),
      c ∈ CleanSources.upaGet (pairs.foldl CleanSources.upaStep u0) a ↔
        c ∈ CleanSources.upaGet u0 a ∨
          ∃ rc ∈ pairs, CleanSources.articleOf rc.1 = some a ∧ rc.2 = c := by
  induction pairs with
  | nil => intro u0 a c; simp
  | cons rc rest ih =>
    intro u0 a c
    rw [List.foldl_cons, ih]
    have hstep : c ∈ CleanSources.upaGet (CleanSources.upaStep u0 rc) a ↔
        c ∈ CleanSources.upaGet u0 a ∨
          (CleanSources.articleOf rc.1 = some a ∧ rc.2 = c) := by
      rcases hart : CleanSources.articleOf rc.1 with _ | b
      · rw [show CleanSources.upaStep u0 rc = u0 by simp [CleanSources.upaStep, hart]]
        simp
      · rw [show CleanSources.upaStep u0 rc = CleanSources.upaAdd u0 b rc.2 by
          simp [CleanSources.upaStep, hart]]
        by_cases hb : a = b
        · subst hb
          rw [upaGet_upaAdd_self, mem_setAdd]
          constructor
          · rintro (h | rfl)
            · exact Or.inl h
            · exact Or.inr ⟨rfl, rfl⟩
          · rintro (h | ⟨_, rfl⟩)
            · exact Or.inl h
            · exact Or.inr rfl
        · rw [upaGet_upaAdd_ne u0 b rc.2 a (fun hh => hb hh)]
          simp only [Option.some.injEq]
          constructor
          · exact Or.inl
          · rintro (h | ⟨hba, _⟩)
            · exact h
            · exact absurd hba.symm hb
    rw [hstep]
    simp only [List.mem_cons]
    constructor
    · rintro ((h | h) | ⟨rc2, hrc2, hp⟩)
      · exact Or.inl h
      · exact Or.inr ⟨rc, Or.inl rfl, h⟩
      · exact Or.inr ⟨rc2, Or.inr hrc2, hp⟩
    · rintro (h | ⟨rc2, hrc2 | hrc2, hp⟩)
      · exact Or.inl (Or.inl h)
      · exact Or.inl (Or.inr (hrc2 ▸ hp))
      · exact Or.inr ⟨rc2, hrc2, hp⟩

/-- Characterization of the folded per-article keys: an article is stored
iff some processed pair has it as its (truthy) article. -/
theorem upa_keys_foldl_mem (pairs : List (CleanSources.Ref × String)) :
    ∀ (u0 : List (String × List String)) (a : String),
      a ∈ (pairs.foldl CleanSources.upaStep u0).map Prod.fst ↔
        a ∈ u0.map Prod.fst ∨
          ∃ rc ∈ pairs, CleanSources.articleOf rc.1 = some a := by
  induction pairs with
  | nil => intro u0 a; simp
  | cons rc rest ih =>
    intro u0 a
    rw [List.foldl_cons, ih]
    have hstep : a ∈ (CleanSources.upaStep u0 rc).map Prod.fst ↔
        a ∈ u0.map Prod.fst ∨ CleanSources.articleOf rc.1 = some a := by
      rcases hart : CleanSources.articleOf rc.1 with _ | b
      · rw [show CleanSources.upaStep u0 rc = u0 by simp [CleanSources.upaStep, hart]]
        simp
      · rw [show CleanSources.upaStep u0 rc = CleanSources.upaAdd u0 b rc.2 by
          simp [CleanSources.upaStep, hart]]
        rw [mem_upaAdd_keys]
        simp only [Option.some.injEq]
        constructor
        · rintro (h | rfl)
          · exact Or.inl h
          · exact Or.inr rfl
        · rintro (h | hba)
          · exact Or.inl h
          · exact Or.inr hba.symm
    rw [hstep]
    simp only [List.mem_cons]
    constructor
    · rintro ((h | h) | ⟨rc2, hrc2, hp⟩)
      · exact Or.inl h
      · exact Or.inr ⟨rc, Or.inl rfl, h⟩
      · exact Or.inr ⟨rc2, Or.inr hrc2, hp⟩
    · rintro (h | ⟨rc2, hrc2 | hrc2, hp⟩)
      · exact Or.inl (Or.inl h)
      · exact Or.inl (Or.inr (hrc2 ▸ hp))
      · exact Or.inr ⟨rc2, hrc2, hp⟩

/-- C10: for every input list of refs on which `clean_refs` completes,
the `total_count`s of the returned records sum to the number of input
references, and every record satisfies `unique_count ≤ total_count`. -/
theorem clean_refs_totals (refs : List CleanSources.Ref)
    (cfg : SrcNorm.NormalizationConfig) (out : List CleanSources.SourceRecord)
    (hout : CleanSources.clean_refs refs cfg = .ok out) :
    (out.map fun rec => rec.total_count).sum = refs.length ∧
    ∀ rec ∈ out, rec.unique_count ≤ rec.total_count := by
  unfold CleanSources.clean_refs at hout
  cases hacc : refs.foldlM (CleanSources.refStep cfg) ([], []) with
  | error e => rw [hacc] at hout; simp [Except.map] at hout
  | ok acc =>
    rw [hacc] at hout
    simp only [Except.map] at hout
    replace hout := Except.ok.inj hout
    obtain ⟨cs, hcs⟩ := clean_refs_ok_mapM cfg refs _ _ hacc
    have hfold := foldlM_refStep_eq cfg refs cs ([], []) hcs
    rw [hacc] at hfold
    replace hfold := Except.ok.inj hfold
    have hfst : acc.1 =
        ((refs.zip cs).map Prod.snd).foldl CleanSources.counterAdd [] := by
      rw [hfold]; exact pure_fold_fst _ ([], [])
    have hsnd : acc.2 = (refs.zip cs).foldl CleanSources.upaStep [] := by
      rw [hfold]; exact pure_fold_snd _ ([], [])
    have hlen : cs.length = refs.length := mapM_ok_length cfg refs cs hcs
    have hsnds : (refs.zip cs).map Prod.snd = cs :=
      List.map_snd_zip refs cs (le_of_eq hlen)
    constructor
    · rw [← hout]
      have hmap : ((acc.1.map fun p =>
          ({ source := p.1,
             unique_count := acc.2.countP fun q => decide (p.1 ∈ q.2),
             total_count := p.2 } : CleanSources.SourceRecord)).map
            fun rec => rec.total_count) = acc.1.map fun p => p.2 := by
        rw [List.map_map]; rfl
      rw [hmap, show (acc.1.map fun p => p.2) = acc.1.map Prod.snd from rfl,
        hfst, hsnds, sum_foldl]
      simpa using hlen
    · intro rec hrec
      rw [← hout] at hrec
      obtain ⟨p, hp, hpeq⟩ := List.mem_map.mp hrec
      have hnodup : (acc.1.map Prod.fst).Nodup := by
        rw [hfst]
        exact keys_foldl_nodup _ [] (by simp)
      have htot : CleanSources.clookup acc.1 p.1 = p.2 :=
        clookup_of_mem acc.1 hnodup p hp
      have hle : CleanSources.upaCount acc.2 p.1 ≤ CleanSources.clookup acc.1 p.1 := by
        rw [hfst, hsnd]
        exact upa_le_counter (refs.zip cs) [] [] (fun x => le_refl 0) p.1
      rw [← hpeq]
      exact le_trans (le_of_eq rfl) (htot ▸ hle)

/-- C1: when `clean_refs` completes on a list of refs whose urls
canonicalize to `cs`, it returns exactly one record per distinct
canonicalized URL occurring in the input (distinct sources, covering
exactly the canonical URLs); each record's `total_count` is the number of
input references whose url canonicalizes to its source, and its
`unique_count` is the number of distinct truthy (non-empty) `article`
values among references citing that source. -/
theorem clean_refs_spec (refs : List CleanSources.Ref)
    (cfg : SrcNorm.NormalizationConfig) (cs : List String)
    (out : List CleanSources.SourceRecord)
    (hcs : refs.mapM
      (fun r => SrcNorm.canonicalize_url (CleanSources.urlOf r) cfg) = .ok cs)
    (hout : CleanSources.clean_refs refs cfg = .ok out) :
    (out.map fun rec => rec.source).Nodup ∧
    (∀ c, c ∈ out.map (fun rec => rec.source) ↔ c ∈ cs) ∧
    ∀ rec ∈ out,
      rec.total_count = cs.count rec.source ∧
      rec.unique_count =
        (((refs.zip cs).filter fun rc => decide (rc.2 = rec.source)).filterMap
          (fun rc => CleanSources.articleOf rc.1)).toFinset.card := by
  unfold CleanSources.clean_refs at hout
  cases hacc : refs.foldlM (CleanSources.refStep cfg) ([], []) with
  | error e => rw [hacc] at hout; simp [Except.map] at hout
  | ok acc =>
    rw [hacc] at hout
    simp only [Except.map] at hout
    replace hout := Except.ok.inj hout
    have hfold := foldlM_refStep_eq cfg refs cs ([], []) hcs
    rw [hacc] at hfold
    replace hfold := Except.ok.inj hfold
    have hfst : acc.1 =
        ((refs.zip cs).map Prod.snd).foldl CleanSources.counterAdd [] := by
      rw [hfold]; exact pure_fold_fst _ ([], [])
    have hsnd : acc.2 = (refs.zip cs).foldl CleanSources.upaStep [] := by
      rw [hfold]; exact pure_fold_snd _ ([], [])
    have hlen : cs.length = refs.length := mapM_ok_length cfg refs cs hcs
    have hsnds : (refs.zip cs).map Prod.snd = cs :=
      List.map_snd_zip refs cs (le_of_eq hlen)
    have hmapsrc : out.map (fun rec => rec.source) = acc.1.map Prod.fst := by
      rw [← hout, List.map_map]; rfl
    have hnodup : (acc.1.map Prod.fst).Nodup := by
      rw [hfst]; exact keys_foldl_nodup _ [] (by simp)
    refine ⟨?_, ?_, ?_⟩
    · rw [hmapsrc]; exact hnodup
    · intro c
      rw [hmapsrc, hfst, mem_keys_foldl, hsnds]
      simp
    · intro rec hrec
      rw [← hout] at hrec
      obtain ⟨p, hp, hpeq⟩ := List.mem_map.mp hrec
      constructor
      · rw [← hpeq]
        show p.2 = cs.count p.1
        have hcl := clookup_of_mem acc.1 hnodup p hp
        rw [hfst, clookup_foldl, hsnds] at hcl
        simpa [CleanSources.clookup] using hcl.symm
      · rw [← hpeq]
        show CleanSources.upaCount acc.2 p.1 = _
        have hund : ((acc.2.map Prod.fst)).Nodup := by
          rw [hsnd]; exact upa_keys_foldl_nodup _ [] (by simp)
        rw [upaCount_eq_filter_keys acc.2 hund p.1]
        have hfn : ((acc.2.map Prod.fst).filter fun a =>
            decide (p.1 ∈ CleanSources.upaGet acc.2 a)).Nodup :=
          hund.filter _
        rw [← List.toFinset_card_of_nodup hfn]
        congr 1
        apply Finset.ext
        intro x
        rw [List.mem_toFinset, List.mem_toFinset, List.mem_filter]
        constructor
        · rintro ⟨hxk, hxg⟩
          rw [decide_eq_true_eq] at hxg
          rw [hsnd, upaGet_foldl] at hxg
          rcases hxg with h0 | ⟨rc, hrc, hart, hc⟩
          · simp [CleanSources.upaGet, List.find?] at h0
          · rw [List.mem_filterMap]
            exact ⟨rc, List.mem_filter.mpr ⟨hrc, by simp [hc]⟩, hart⟩
        · intro hx
          rw [List.mem_filterMap] at hx
          obtain ⟨rc, hrc, hart⟩ := hx
          have hrc2 := List.mem_filter.mp hrc
          have hceq : rc.2 = p.1 := by simpa using hrc2.2
          constructor
          · rw [hsnd, upa_keys_foldl_mem]
            exact Or.inr ⟨rc, hrc2.1, hart⟩
          · rw [decide_eq_true_eq, hsnd, upaGet_foldl]
            exact Or.inr ⟨rc, hrc2.1, hart, hceq⟩

/-- C1 (witness): the alias-config example of the repository's own test
suite — four refs over two canonical sources and two articles. -/
theorem clean_refs_spec_witness :
    ([{ url := some "https://www.nyti.ms/foo?ref=bar", article := some "A" },
      { url := some "https://nytimes.com/foo", article := some "A" },
      { url := some "https://nytimes.com/bar", article := some "B" },
      { url := some "https://example.com?x=1", article := some "B" }] :
        List CleanSources.Ref).mapM
        (fun r => SrcNorm.canonicalize_url (CleanSources.urlOf r)
          { aliases := some [("nyti.ms", "nytimes.com")] }) =
      .ok ["https://nytimes.com", "https://nytimes.com",
           "https://nytimes.com", "https://example.com"] ∧
    CleanSources.clean_refs
        [{ url := some "https://www.nyti.ms/foo?ref=bar", article := some "A" },
         { url := some "https://nytimes.com/foo", article := some "A" },
         { url := some "https://nytimes.com/bar", article := some "B" },
         { url := some "https://example.com?x=1", article := some "B" }]
        { aliases := some [("nyti.ms", "nytimes.com")] } =
      .ok [{ source := "https://nytimes.com", unique_count := 2, total_count := 3 },
           { source := "https://example.com", unique_count := 1, total_count := 1 }] ∧
    (([{ source := "https://nytimes.com", unique_count := 2, total_count := 3 },
       { source := "https://example.com", unique_count := 1, total_count := 1 }] :
        List CleanSources.SourceRecord).map fun rec => rec.source).Nodup ∧
    ∀ rec ∈ ([{ source := "https://nytimes.com", unique_count := 2, total_count := 3 },
              { source := "https://example.com", unique_count := 1, total_count := 1 }] :
        List CleanSources.SourceRecord),
      rec.total_count = (["https://nytimes.com", "https://nytimes.com",
        "https://nytimes.com", "https://example.com"]).count rec.source := by
  have hcs : ([{ url := some "https://www.nyti.ms/foo?ref=bar", article := some "A" },
      { url := some "https://nytimes.com/foo", article := some "A" },
      { url := some "https://nytimes.com/bar", article := some "B" },
      { url := some "https://example.com?x=1", article := some "B" }] :
        List CleanSources.Ref).mapM
        (fun r => SrcNorm.canonicalize_url (CleanSources.urlOf r)
          { aliases := some [("nyti.ms", "nytimes.com")] }) =
      .ok ["https://nytimes.com", "https://nytimes.com",
           "https://nytimes.com", "https://example.com"] := by decide
  have hout : CleanSources.clean_refs
        [{ url := some "https://www.nyti.ms/foo?ref=bar", article := some "A" },
         { url := some "https://nytimes.com/foo", article := some "A" },
         { url := some "https://nytimes.com/bar", article := some "B" },
         { url := some "https://example.com?x=1", article := some "B" }]
        { aliases := some [("nyti.ms", "nytimes.com")] } =
      .ok [{ source := "https://nytimes.com", unique_count := 2, total_count := 3 },
           { source := "https://example.com", unique_count := 1, total_count := 1 }] := by
    decide
  have h := clean_refs_spec _ _ _ _ hcs hout
  exact ⟨hcs, hout, h.1, fun rec hr => (h.2.2 rec hr).1⟩

/-- C10 (witness): three refs, two of which canonicalize to the same
source cited by one article. -/
theorem clean_refs_totals_witness :
    CleanSources.clean_refs
        [{ url := some "https://a.example.com/x", article := some "Art" },
         { url := some "https://example.com/y", article := some "Art" },
         { url := none, article := none }] SrcNorm.DEFAULT_CONFIG =
      .ok [{ source := "https://example.com", unique_count := 1, total_count := 2 },
           { source := "", unique_count := 0, total_count := 1 }] ∧
    (([{ source := "https://example.com", unique_count := 1, total_count := 2 },
       { source := "", unique_count := 0, total_count := 1 }] :
        List CleanSources.SourceRecord).map fun rec => rec.total_count).sum =
      ([{ url := some "https://a.example.com/x", article := some "Art" },
        { url := some "https://example.com/y", article := some "Art" },
        { url := none, article := none }] : List CleanSources.Ref).length ∧
    ∀ rec ∈ ([{ source := "https://example.com", unique_count := 1, total_count := 2 },
              { source := "", unique_count := 0, total_count := 1 }] :
        List CleanSources.SourceRecord), rec.unique_count ≤ rec.total_count := by
  have h : CleanSources.clean_refs
      [{ url := some "https://a.example.com/x", article := some "Art" },
       { url := some "https://example.com/y", article := some "Art" },
       { url := none, article := none }] SrcNorm.DEFAULT_CONFIG =
      .ok [{ source := "https://example.com", unique_count := 1, total_count := 2 },
           { source := "", unique_count := 0, total_count := 1 }] := by decide
  exact ⟨h, clean_refs_totals _ _ _ h⟩

/-- `Char.ofNat` of a scalar below the surrogate range keeps its value. -/
theorem toNat_ofNat_lt (n : Nat) (h : n < 55296) : (Char.ofNat n).toNat = n := by
  unfold Char.ofNat
  rw [dif_pos (Or.inl h)]
  rfl

/-- `pyLowerChar` of an uppercase ASCII letter, by value. -/
theorem pyLowerChar_toNat_of_upper (c : Char) (h : 'A' ≤ c ∧ c ≤ 'Z') :
    (pyLowerChar c).toNat = c.toNat + 32 := by
  rw [pyLowerChar, if_pos h]
  have hz : c.toNat ≤ 90 := h.2
  exact toNat_ofNat_lt _ (by omega)

/-- `pyLowerChar` moves no character outside `a`–`z` into `a`–`z`, and
fixes everything that is not an uppercase ASCII letter. -/
theorem pyLowerChar_of_not_upper (c : Char) (h : ¬ ('A' ≤ c ∧ c ≤ 'Z')) :
    pyLowerChar c = c := by
  rw [pyLowerChar, if_neg h]

/-- `pyLowerChar` is idempotent. -/
theorem pyLowerChar_idem (c : Char) :
    pyLowerChar (pyLowerChar c) = pyLowerChar c := by
  by_cases h : 'A' ≤ c ∧ c ≤ 'Z'
  · have hv := pyLowerChar_toNat_of_upper c h
    refine pyLowerChar_of_not_upper _ ?_
    intro hcon
    have h1 : (65 : Nat) ≤ (pyLowerChar c).toNat := hcon.1
    have h2 : (pyLowerChar c).toNat ≤ (90 : Nat) := hcon.2
    have h3 : (65 : Nat) ≤ c.toNat := h.1
    omega
  · rw [pyLowerChar_of_not_upper c h, pyLowerChar_of_not_upper c h]

/-- Only a lowercase ASCII letter can be the image of a different
character under `pyLowerChar`. -/
theorem eq_of_pyLowerChar_eq (c d : Char)
    (hd : ¬ (97 ≤ d.toNat ∧ d.toNat ≤ 122)) (h : pyLowerChar c = d) : c = d := by
  by_cases hc : 'A' ≤ c ∧ c ≤ 'Z'
  · exfalso
    have hv := pyLowerChar_toNat_of_upper c hc
    have h1 : (65 : Nat) ≤ c.toNat := hc.1
    have h2 : c.toNat ≤ (90 : Nat) := hc.2
    rw [h] at hv
    omega
  · rw [pyLowerChar_of_not_upper c hc] at h
    exact h

/-- `pyLowerChar` preserves ASCII alphabeticity. -/
theorem isAsciiAlpha_pyLowerChar (c : Char) (h : isAsciiAlpha c = true) :
    isAsciiAlpha (pyLowerChar c) = true := by
  rw [isAsciiAlpha] at h ⊢
  by_cases hc : 'A' ≤ c ∧ c ≤ 'Z'
  · have hv := pyLowerChar_toNat_of_upper c hc
    have h1 : (65 : Nat) ≤ c.toNat := hc.1
    have h2 : c.toNat ≤ (90 : Nat) := hc.2
    simp only [decide_eq_true_eq]
    right
    constructor
    · show ('a').toNat ≤ (pyLowerChar c).toNat
      rw [hv, show ('a').toNat = 97 from rfl]; omega
    · show (pyLowerChar c).toNat ≤ ('z').toNat
      rw [hv, show ('z').toNat = 122 from rfl]; omega
  · rw [pyLowerChar_of_not_upper c hc]
    exact h

/-- A list map is the identity iff the function fixes every element. -/
theorem map_eq_self_iff_fix {f : Char → Char} :
    ∀ l : List Char, l.map f = l ↔ ∀ c ∈ l, f c = c := by
  intro l
  induction l with
  | nil => simp
  | cons c rest ih =>
    simp only [List.map_cons, List.cons.injEq, List.mem_cons]
    constructor
    · rintro ⟨h1, h2⟩ x (rfl | hx)
      · exact h1
      · exact (ih.mp h2) x hx
    · intro h
      exact ⟨h c (Or.inl rfl), ih.mpr fun x hx => h x (Or.inr hx)⟩

/-- `pyLower` is idempotent. -/
theorem pyLower_idem (l : List Char) : pyLower (pyLower l) = pyLower l := by
  rw [pyLower, pyLower, List.map_map]
  exact List.map_congr_left fun c _ => pyLowerChar_idem c

/-- A character that is not an ASCII letter occurs in a lowered list iff
it occurs in the original. -/
theorem mem_pyLower_iff (l : List Char) (d : Char)
    (hd1 : ¬ (97 ≤ d.toNat ∧ d.toNat ≤ 122))
    (hd2 : ¬ (65 ≤ d.toNat ∧ d.toNat ≤ 90)) : d ∈ pyLower l ↔ d ∈ l := by
  rw [pyLower, List.mem_map]
  constructor
  · rintro ⟨c, hc, hcd⟩
    exact (eq_of_pyLowerChar_eq c d hd1 hcd) ▸ hc
  · intro h
    exact ⟨d, h, pyLowerChar_of_not_upper d fun hcon => hd2 ⟨hcon.1, hcon.2⟩⟩

/-- The number of parts of a split is the separator count plus one. -/
theorem splitOnChar_length (sep : Char) :
    ∀ l : List Char, (splitOnChar sep l).length = l.count sep + 1 := by
  intro l
  induction l with
  | nil => simp [splitOnChar]
  | cons c rest ih =>
    by_cases h : c = sep
    · subst h
      simp [splitOnChar, List.count_cons, ih]
    · rw [splitOnChar]
      rw [if_neg h]
      have hne : (splitOnChar sep rest) ≠ [] := by
        cases hs : splitOnChar sep rest with
        | nil => rw [hs] at ih; simp at ih
        | cons p ps => simp
      rcases hs : splitOnChar sep rest with _ | ⟨p, ps⟩
      · exact absurd hs hne
      · rw [hs] at ih
        simp only [List.length_cons] at ih ⊢
        rw [List.count_cons]
        have : ¬ (c == sep) = true := by simpa using h
        simp [this, ih]

/-- Parts of a split contain no separator. -/
theorem splitOnChar_parts_no_sep (sep : Char) :
    ∀ (l : List Char), ∀ p ∈ splitOnChar sep l, sep ∉ p := by
  intro l
  induction l with
  | nil =>
    intro p hp
    simp [splitOnChar] at hp
    simp [hp]
  | cons c rest ih =>
    intro p hp
    by_cases h : c = sep
    · subst h
      rw [splitOnChar, if_pos rfl] at hp
      rcases List.mem_cons.mp hp with rfl | hp2
      · simp
      · exact ih p hp2
    · rw [splitOnChar, if_neg h] at hp
      rcases hs : splitOnChar sep rest with _ | ⟨q, qs⟩
      · rw [hs] at hp
        rcases List.mem_cons.mp hp with rfl | hp2
        · intro hmem
          rcases List.mem_singleton.mp hmem with rfl
          exact h rfl
        · simp at hp2
      · rw [hs] at hp
        rcases List.mem_cons.mp hp with rfl | hp2
        · intro hmem
          rcases List.mem_cons.mp hmem with rfl | hmem2
          · exact h rfl
          · exact ih q (hs ▸ List.mem_cons_self q qs) hmem2
        · exact ih p (hs ▸ List.mem_cons_of_mem q hp2)

/-- Characters of split parts come from the original list. -/
theorem mem_of_mem_splitOnChar (sep : Char) :
    ∀ (l : List Char), ∀ p ∈ splitOnChar sep l, ∀ c ∈ p, c ∈ l := by
  intro l
  induction l with
  | nil =>
    intro p hp c hc
    simp [splitOnChar] at hp
    subst hp
    simp at hc
  | cons x rest ih =>
    intro p hp c hc
    by_cases h : x = sep
    · subst h
      rw [splitOnChar, if_pos rfl] at hp
      rcases List.mem_cons.mp hp with rfl | hp2
      · simp at hc
      · exact List.mem_cons_of_mem _ (ih p hp2 c hc)
    · rw [splitOnChar, if_neg h] at hp
      rcases hs : splitOnChar sep rest with _ | ⟨q, qs⟩
      · rw [hs] at hp
        rcases List.mem_cons.mp hp with rfl | hp2
        · rcases List.mem_singleton.mp hc with rfl
          exact List.mem_cons_self _ _
        · simp at hp2
      · rw [hs] at hp
        rcases List.mem_cons.mp hp with rfl | hp2
        · rcases List.mem_cons.mp hc with rfl | hc2
          · exact List.mem_cons_self _ _
          · exact List.mem_cons_of_mem _
              (ih q (hs ▸ List.mem_cons_self q qs) c hc2)
        · exact List.mem_cons_of_mem _
            (ih p (hs ▸ List.mem_cons_of_mem q hp2) c hc)

/-- Separator count of a rejoin of separator-free parts. -/
theorem intercalateChar_count (sep : Char) :
    ∀ parts : List (List Char), (∀ p ∈ parts, sep ∉ p) →
      (intercalateChar sep parts).count sep = parts.length - 1 := by
  intro parts
  induction parts with
  | nil => intro _; simp [intercalateChar]
  | cons p ps ih =>
    intro h
    cases ps with
    | nil =>
      simp only [intercalateChar, List.length_cons, List.length_nil]
      rw [List.count_eq_zero.mpr (h p (List.mem_cons_self _ _))]
    | cons q qs =>
      rw [show intercalateChar sep (p :: q :: qs) =
          p ++ sep :: intercalateChar sep (q :: qs) from rfl]
      rw [List.count_append, List.count_cons]
      rw [List.count_eq_zero.mpr (h p (List.mem_cons_self _ _))]
      rw [ih fun r hr => h r (List.mem_cons_of_mem _ hr)]
      simp [List.length_cons]

/-- Characters of a rejoin are separators or come from the parts. -/
theorem mem_intercalateChar (sep : Char) :
    ∀ (parts : List (List Char)) (c : Char), c ∈ intercalateChar sep parts →
      c = sep ∨ ∃ p ∈ parts, c ∈ p := by
  intro parts
  induction parts with
  | nil => intro c hc; simp [intercalateChar] at hc
  | cons p ps ih =>
    intro c hc
    cases ps with
    | nil => exact Or.inr ⟨p, List.mem_singleton.mpr rfl, hc⟩
    | cons q qs =>
      rw [show intercalateChar sep (p :: q :: qs) =
          p ++ sep :: intercalateChar sep (q :: qs) from rfl] at hc
      rcases List.mem_append.mp hc with hc1 | hc2
      · exact Or.inr ⟨p, List.mem_cons_self _ _, hc1⟩
      · rcases List.mem_cons.mp hc2 with rfl | hc3
        · exact Or.inl rfl
        · rcases ih c hc3 with h | ⟨r, hr, hcr⟩
          · exact Or.inl h
          · exact Or.inr ⟨r, List.mem_cons_of_mem _ hr, hcr⟩

/-- The stripped host has at most one dot. -/
theorem strip_subdomain_count (h : List Char) :
    (SrcNorm.strip_subdomain h).count '.' ≤ 1 := by
  rw [SrcNorm.strip_subdomain]
  split_ifs with hlen
  · rw [intercalateChar_count '.' _
      (fun p hp => splitOnChar_parts_no_sep '.' h p (List.mem_of_mem_drop hp))]
    rw [List.length_drop]
    omega
  · have := splitOnChar_length '.' h
    omega

/-- A host with at most one dot is unchanged by `strip_subdomain`. -/
theorem strip_subdomain_noop (h : List Char) (hc : h.count '.' ≤ 1) :
    SrcNorm.strip_subdomain h = h := by
  rw [SrcNorm.strip_subdomain]
  rw [if_neg]
  have := splitOnChar_length '.' h
  omega

/-- Characters of the stripped host come from the host (or are dots). -/
theorem mem_strip_subdomain (h : List Char) (c : Char)
    (hc : c ∈ SrcNorm.strip_subdomain h) : c ∈ h ∨ c = '.' := by
  rw [SrcNorm.strip_subdomain] at hc
  split_ifs at hc with hlen
  · rcases mem_intercalateChar '.' _ c hc with rfl | ⟨p, hp, hcp⟩
    · exact Or.inr rfl
    · exact Or.inl (mem_of_mem_splitOnChar '.' h p (List.mem_of_mem_drop hp) c hcp)
  · exact Or.inl hc

/-- Lowercasing preserves the count of a non-letter character. -/
theorem count_pyLower (l : List Char) (d : Char)
    (hd1 : ¬ (97 ≤ d.toNat ∧ d.toNat ≤ 122))
    (hd2 : ¬ (65 ≤ d.toNat ∧ d.toNat ≤ 90)) :
    (pyLower l).count d = l.count d := by
  induction l with
  | nil => rfl
  | cons c rest ih =>
    rw [pyLower] at ih
    rw [pyLower, List.map_cons, List.count_cons, List.count_cons, ih]
    congr 1
    by_cases hc : pyLowerChar c = d
    · have hcd : c = d := eq_of_pyLowerChar_eq c d hd1 hc
      have hfix : pyLowerChar d = d :=
        pyLowerChar_of_not_upper d fun hup => hd2 ⟨hup.1, hup.2⟩
      simp [hcd, hfix]
    · have hcd : ¬ c = d := by
        intro hcon
        subst hcon
        exact hc (pyLowerChar_of_not_upper c fun hup => hd2 ⟨hup.1, hup.2⟩)
      simp [hc, hcd]

section TakeDrop

variable {p : Char → Bool}

/-- Members of `takeWhile` are members satisfying the predicate. -/
theorem mem_takeWhile_sub : ∀ (l : List Char) (c : Char),
    c ∈ l.takeWhile p → c ∈ l ∧ p c = true := by
  intro l
  induction l with
  | nil => intro c hc; simp at hc
  | cons x rest ih =>
    intro c hc
    rw [List.takeWhile_cons] at hc
    by_cases hx : p x = true
    · rw [if_pos hx] at hc
      rcases List.mem_cons.mp hc with rfl | hc2
      · exact ⟨List.mem_cons_self _ _, hx⟩
      · obtain ⟨h1, h2⟩ := ih c hc2
        exact ⟨List.mem_cons_of_mem _ h1, h2⟩
    · rw [if_neg hx] at hc
      simp at hc

/-- Members of `dropWhile` are members. -/
theorem mem_dropWhile_sub : ∀ (l : List Char) (c : Char),
    c ∈ l.dropWhile p → c ∈ l := by
  intro l
  induction l with
  | nil => intro c hc; simp at hc
  | cons x rest ih =>
    intro c hc
    rw [List.dropWhile_cons] at hc
    by_cases hx : p x = true
    · rw [if_pos hx] at hc
      exact List.mem_cons_of_mem _ (ih c hc)
    · rw [if_neg hx] at hc
      exact hc

/-- A list all of whose members satisfy `p` is its own `takeWhile`. -/
theorem takeWhile_all : ∀ l : List Char, (∀ c ∈ l, p c = true) →
    l.takeWhile p = l := by
  intro l
  induction l with
  | nil => intro _; rfl
  | cons x rest ih =>
    intro h
    rw [List.takeWhile_cons, if_pos (h x (List.mem_cons_self _ _))]
    rw [ih fun c hc => h c (List.mem_cons_of_mem _ hc)]

/-- A list all of whose members satisfy `p` has empty `dropWhile`. -/
theorem dropWhile_all : ∀ l : List Char, (∀ c ∈ l, p c = true) →
    l.dropWhile p = [] := by
  intro l
  induction l with
  | nil => intro _; rfl
  | cons x rest ih =>
    intro h
    rw [List.dropWhile_cons, if_pos (h x (List.mem_cons_self _ _))]
    exact ih fun c hc => h c (List.mem_cons_of_mem _ hc)

/-- Scanning past a satisfying block stops exactly at the first failing
element. -/
theorem takeWhile_dropWhile_append_stop :
    ∀ (xs : List Char) (y : Char) (ys : List Char),
      (∀ x ∈ xs, p x = true) → p y = false →
      (xs ++ y :: ys).takeWhile p = xs ∧ (xs ++ y :: ys).dropWhile p = y :: ys := by
  intro xs
  induction xs with
  | nil =>
    intro y ys _ hy
    constructor
    · rw [List.nil_append, List.takeWhile_cons, if_neg (by simp [hy])]
    · rw [List.nil_append, List.dropWhile_cons, if_neg (by simp [hy])]
  | cons x rest ih =>
    intro y ys hall hy
    have hx : p x = true := hall x (List.mem_cons_self _ _)
    obtain ⟨ht, hd⟩ := ih y ys (fun c hc => hall c (List.mem_cons_of_mem _ hc)) hy
    constructor
    · rw [List.cons_append, List.takeWhile_cons, if_pos hx, ht]
    · rw [List.cons_append, List.dropWhile_cons, if_pos hx, hd]

/-- The head of a non-empty `dropWhile` fails the predicate. -/
theorem dropWhile_head_false : ∀ (l : List Char) (c : Char) (rest : List Char),
    l.dropWhile p = c :: rest → p c = false := by
  intro l
  induction l with
  | nil => intro c rest h; simp at h
  | cons x xs ih =>
    intro c rest h
    rw [List.dropWhile_cons] at h
    by_cases hx : p x = true
    · rw [if_pos hx] at h
      exact ih c rest h
    · rw [if_neg hx] at h
      cases h
      simpa using hx

end TakeDrop

/-- The suffix after the last separator never contains the separator. -/
theorem rpartitionAfter_no_sep (l : List Char) (sep : Char) :
    sep ∉ rpartitionAfter l sep := by
  rw [rpartitionAfter]
  intro h
  have := (mem_takeWhile_sub _ _ (List.mem_reverse.mp h)).2
  simp at this

/-- The suffix after the last separator is made of original characters. -/
theorem rpartitionAfter_subset (l : List Char) (sep c : Char)
    (h : c ∈ rpartitionAfter l sep) : c ∈ l := by
  rw [rpartitionAfter] at h
  exact List.mem_reverse.mp
    ((mem_takeWhile_sub _ _ (List.mem_reverse.mp h)).1)

/-- Without the separator, `rpartition` keeps the whole list. -/
theorem rpartitionAfter_of_no_sep (l : List Char) (sep : Char)
    (h : sep ∉ l) : rpartitionAfter l sep = l := by
  rw [rpartitionAfter]
  rw [takeWhile_all l.reverse fun c hc => by
    have : ¬ c = sep := fun hh => h (hh ▸ List.mem_reverse.mp hc)
    simpa using this]
  exact List.reverse_reverse l

/-- `partition` on an absent separator returns the whole list. -/
theorem partitionChar_not_found (l : List Char) (sep : Char) (h : sep ∉ l) :
    partitionChar l sep = (l, false, []) := by
  rw [partitionChar]
  rw [dropWhile_all l fun c hc => by
    have : ¬ c = sep := fun hh => h (hh ▸ hc)
    simpa using this]

/-- `partition` on a present separator: found flag, separator-free head,
and reassembly. -/
theorem partitionChar_found (l : List Char) (sep : Char) (h : sep ∈ l) :
    (partitionChar l sep).2.1 = true ∧
    l = (partitionChar l sep).1 ++ sep :: (partitionChar l sep).2.2 ∧
    sep ∉ (partitionChar l sep).1 := by
  rcases hd : l.dropWhile (fun c => ¬ c = sep) with _ | ⟨y, post⟩
  · exfalso
    have hall := List.dropWhile_eq_nil_iff.mp hd
    have := hall sep h
    simp at this
  · have hy : y = sep := by
      have := dropWhile_head_false l y post hd
      simpa using this
    have hpc : partitionChar l sep =
        (l.takeWhile (fun c => ¬ c = sep), true, post) := by
      rw [partitionChar, hd]
    rw [hpc]
    refine ⟨rfl, ?_, ?_⟩
    · have hsplit := List.takeWhile_append_dropWhile
        (p := fun c => decide (¬ c = sep)) (l := l)
      rw [hd, hy] at hsplit
      exact hsplit.symm
    · intro hmem
      have := (mem_takeWhile_sub _ _ hmem).2
      simp at this

/-- The head component of `partition` is made of original characters. -/
theorem partitionChar_fst_subset (l : List Char) (sep c : Char)
    (h : c ∈ (partitionChar l sep).1) : c ∈ l := by
  rw [partitionChar] at h
  rcases hd : l.dropWhile (fun x => ¬ x = sep) with _ | ⟨y, post⟩
  · rw [hd] at h; exact h
  · rw [hd] at h
    exact (mem_takeWhile_sub _ _ h).1

/-- The tail component of `partition` is made of original characters. -/
theorem partitionChar_trd_subset (l : List Char) (sep c : Char)
    (h : c ∈ (partitionChar l sep).2.2) : c ∈ l := by
  rw [partitionChar] at h
  rcases hd : l.dropWhile (fun x => ¬ x = sep) with _ | ⟨y, post⟩
  · rw [hd] at h; simp at h
  · rw [hd] at h
    exact mem_dropWhile_sub l c (hd ▸ List.mem_cons_of_mem y h)

/-- The extracted hostname is made of netloc characters. -/
theorem hostinfoHostname_subset (n : List Char) (c : Char)
    (h : c ∈ hostinfoHostnameL n) : c ∈ n := by
  rw [hostinfoHostnameL] at h
  by_cases hbr : (partitionChar (rpartitionAfter n '@') '[').2.1 = true
  · rw [if_pos hbr] at h
    exact rpartitionAfter_subset n '@' c
      (partitionChar_trd_subset _ _ _ (partitionChar_fst_subset _ _ _ h))
  · rw [if_neg hbr] at h
    exact rpartitionAfter_subset n '@' c (partitionChar_fst_subset _ _ _ h)

/-- The extracted hostname never contains `@`. -/
theorem hostinfoHostname_no_at (n : List Char) : '@' ∉ hostinfoHostnameL n := by
  intro h
  rw [hostinfoHostnameL] at h
  by_cases hbr : (partitionChar (rpartitionAfter n '@') '[').2.1 = true
  · rw [if_pos hbr] at h
    exact rpartitionAfter_no_sep n '@'
      (partitionChar_trd_subset _ _ _ (partitionChar_fst_subset _ _ _ h))
  · rw [if_neg hbr] at h
    exact rpartitionAfter_no_sep n '@' (partitionChar_fst_subset _ _ _ h)

/-- A character that is neither a lowercase letter, `%`, nor `@` occurs in
the hostname only if it occurs in the netloc. -/
theorem hostnameOrEmpty_no_char (n : List Char) (f : Char)
    (hf1 : ¬ (97 ≤ f.toNat ∧ f.toNat ≤ 122)) (hf2 : ¬ f = '%')
    (hmem : f ∉ n) : f ∉ hostnameOrEmptyL n := by
  intro h
  rw [hostnameOrEmptyL] at h
  split_ifs at h with h0
  · simp at h
  · by_cases hz : (partitionChar (hostinfoHostnameL n) '%').2.1 = true
    · rw [if_pos hz] at h
      rcases List.mem_append.mp h with h1 | h2
      · obtain ⟨d, hd, hdc⟩ := List.mem_map.mp h1
        rw [eq_of_pyLowerChar_eq d f hf1 hdc] at hd
        exact hmem (hostinfoHostname_subset n f
          (partitionChar_fst_subset _ _ _ hd))
      · rcases List.mem_cons.mp h2 with rfl | h3
        · exact hf2 rfl
        · exact hmem (hostinfoHostname_subset n f
            (partitionChar_trd_subset _ _ _ h3))
    · rw [if_neg hz] at h
      obtain ⟨d, hd, hdc⟩ := List.mem_map.mp h
      rw [eq_of_pyLowerChar_eq d f hf1 hdc] at hd
      exact hmem (hostinfoHostname_subset n f
        (partitionChar_fst_subset _ _ _ hd))

/-- The hostname never contains `@` (dropped with the userinfo). -/
theorem hostnameOrEmpty_no_at (n : List Char) : '@' ∉ hostnameOrEmptyL n := by
  intro h
  rw [hostnameOrEmptyL] at h
  split_ifs at h with h0
  · simp at h
  · have hsub : ∀ c ∈ hostnameOrEmptyL n, True := fun _ _ => trivial
    by_cases hz : (partitionChar (hostinfoHostnameL n) '%').2.1 = true
    · rw [if_pos hz] at h
      rcases List.mem_append.mp h with h1 | h2
      · obtain ⟨d, hd, hdc⟩ := List.mem_map.mp h1
        rw [eq_of_pyLowerChar_eq d '@' (by simp) hdc] at hd
        exact hostinfoHostname_no_at n (partitionChar_fst_subset _ _ _ hd)
      · rcases List.mem_cons.mp h2 with heq | h3
        · exact absurd heq (by simp)
        · exact hostinfoHostname_no_at n (partitionChar_trd_subset _ _ _ h3)
    · rw [if_neg hz] at h
      obtain ⟨d, hd, hdc⟩ := List.mem_map.mp h
      rw [eq_of_pyLowerChar_eq d '@' (by simp) hdc] at hd
      exact hostinfoHostname_no_at n (partitionChar_fst_subset _ _ _ hd)

/-- On a lowered, bracket-, colon- and at-free netloc, hostname extraction
is the identity. -/
theorem hostnameOrEmpty_self (H : List Char) (hlow : pyLower H = H)
    (hat : '@' ∉ H) (hbr : '[' ∉ H) (hcol : ':' ∉ H) :
    hostnameOrEmptyL H = H := by
  have hhost : hostinfoHostnameL H = H := by
    rw [hostinfoHostnameL, rpartitionAfter_of_no_sep H '@' hat,
      partitionChar_not_found H '[' hbr]
    simp only [Bool.false_eq_true, if_false]
    rw [partitionChar_not_found H ':' hcol]
  rw [hostnameOrEmptyL, hhost]
  split_ifs with h0
  · exact h0.symm
  · have hfix : ∀ c ∈ H, pyLowerChar c = c := (map_eq_self_iff_fix H).mp hlow
    by_cases hz : '%' ∈ H
    · obtain ⟨hfound, hsplit, hfree⟩ := partitionChar_found H '%' hz
      rw [if_pos hfound]
      have hpre : pyLower (partitionChar H '%').1 = (partitionChar H '%').1 :=
        (map_eq_self_iff_fix _).mpr fun c hc =>
          hfix c (partitionChar_fst_subset _ _ _ hc)
      rw [hpre]
      exact hsplit.symm
    · rw [partitionChar_not_found H '%' hz]
      simp only [Bool.false_eq_true, if_false]
      exact hlow

/-- `split(sep, 1)` on a separator-free list finds nothing. -/
theorem splitOnceChar_not_mem (l : List Char) (sep : Char) (h : sep ∉ l) :
    splitOnceChar l sep = none := by
  rw [splitOnceChar]
  rw [dropWhile_all l fun c hc => by
    have : ¬ c = sep := fun hh => h (hh ▸ hc)
    simpa using this]

/-- `split(sep, 1)` splits at the first separator occurrence. -/
theorem splitOnceChar_append (pre post : List Char) (sep : Char)
    (h : sep ∉ pre) : splitOnceChar (pre ++ sep :: post) sep = some (pre, post) := by
  have hall : ∀ c ∈ pre, (fun c => decide (¬ c = sep)) c = true := fun c hc => by
    have : ¬ c = sep := fun hh => h (hh ▸ hc)
    simpa using this
  have hy : (fun c => decide (¬ c = sep)) sep = false := by simp
  obtain ⟨ht, hd⟩ := takeWhile_dropWhile_append_stop pre sep post hall hy
  rw [splitOnceChar, hd, ht]

/-- Inversion for a successful `split(sep, 1)`. -/
theorem splitOnceChar_eq_some (l : List Char) (sep : Char) (pre post : List Char)
    (h : splitOnceChar l sep = some (pre, post)) :
    l = pre ++ sep :: post ∧ sep ∉ pre := by
  rw [splitOnceChar] at h
  rcases hd : l.dropWhile (fun c => ¬ c = sep) with _ | ⟨y, p2⟩
  · rw [hd] at h
    simp at h
  · rw [hd] at h
    have hy : y = sep := by
      have := dropWhile_head_false l y p2 hd
      simpa using this
    have h2 := Option.some.inj h
    have h3 : l.takeWhile (fun c => ¬ c = sep) = pre := congrArg Prod.fst h2
    have h4 : p2 = post := congrArg Prod.snd h2
    constructor
    · have hsplit := List.takeWhile_append_dropWhile
        (p := fun c => decide (¬ c = sep)) (l := l)
      rw [hd, hy, h3, h4] at hsplit
      exact hsplit.symm
    · intro hmem
      rw [← h3] at hmem
      have := (mem_takeWhile_sub _ _ hmem).2
      simp at this

/-- No colon, no scheme. -/
theorem splitSchemeL_no_colon (l : List Char) (h : ':' ∉ l) :
    splitSchemeL l = ([], l) := by
  rw [splitSchemeL, splitOnceChar_not_mem l ':' h]

/-- A url whose head is not an ASCII letter yields no scheme. -/
theorem splitSchemeL_head_not_alpha (l : List Char)
    (h : ¬ ((l.head?.map isAsciiAlpha).getD false = true)) :
    splitSchemeL l = ([], l) := by
  rw [splitSchemeL]
  rcases hs : splitOnceChar l ':' with _ | ⟨pre, post⟩
  · rfl
  · obtain ⟨hl, _⟩ := splitOnceChar_eq_some l ':' pre post hs
    dsimp only
    rw [if_neg]
    intro hguard
    obtain ⟨h1, h2, _⟩ := hguard
    rcases pre with _ | ⟨c, rest⟩
    · exact h1 rfl
    · apply h
      rw [hl]
      simpa using h2

/-- A well-formed lowered scheme followed by `:` is split off unchanged. -/
theorem splitSchemeL_valid (s rest : List Char)
    (hne : ¬ s = []) (hcol : ':' ∉ s)
    (halpha : ((s.head?.map isAsciiAlpha).getD false) = true)
    (hchars : s.all (fun c => decide (c ∈ schemeCharsL)) = true)
    (hlow : pyLower s = s) :
    splitSchemeL (s ++ ':' :: rest) = (s, rest) := by
  rw [splitSchemeL, splitOnceChar_append s rest ':' hcol]
  dsimp only
  rw [if_pos ⟨hne, halpha, hchars⟩, hlow]

/-- Lowering a scheme character yields a scheme character. -/
theorem schemeChars_lower : ∀ c ∈ schemeCharsL, pyLowerChar c ∈ schemeCharsL := by
  decide

/-- Scheme characters are not removed by `stripUrlBytes`. -/
theorem schemeChars_ws : ∀ c ∈ schemeCharsL, ¬ (c = '\t' ∨ c = '\r' ∨ c = '\n') := by
  decide

/-- The scheme produced by `splitSchemeL` is either empty or a non-empty
colon-free lowered string of scheme characters with a letter head. -/
theorem splitSchemeL_fst_spec (l : List Char) :
    (splitSchemeL l).1 = [] ∨
    (¬ (splitSchemeL l).1 = [] ∧ ':' ∉ (splitSchemeL l).1 ∧
      (((splitSchemeL l).1.head?.map isAsciiAlpha).getD false) = true ∧
      (splitSchemeL l).1.all (fun c => decide (c ∈ schemeCharsL)) = true ∧
      pyLower (splitSchemeL l).1 = (splitSchemeL l).1) := by
  rw [splitSchemeL]
  rcases hs : splitOnceChar l ':' with _ | ⟨pre, post⟩
  · left
    rfl
  · dsimp only
    by_cases hg : ¬ pre = [] ∧ ((pre.head?.map isAsciiAlpha).getD false) = true ∧
        pre.all (fun c => decide (c ∈ schemeCharsL)) = true
    · rw [if_pos hg]
      obtain ⟨h1, h2, h3⟩ := hg
      right
      refine ⟨?_, ?_, ?_, ?_, ?_⟩
      · intro hc
        exact h1 (List.map_eq_nil_iff.mp hc)
      · intro hc
        obtain ⟨d, hd, hdc⟩ := List.mem_map.mp hc
        rw [eq_of_pyLowerChar_eq d ':' (by simp) hdc] at hd
        have := List.all_eq_true.mp h3 ':' hd
        exact absurd (of_decide_eq_true this) (by decide)
      · rcases pre with _ | ⟨c, rest⟩
        · exact absurd rfl h1
        · have hc : isAsciiAlpha c = true := by simpa using h2
          simpa [pyLower] using isAsciiAlpha_pyLowerChar c hc
      · apply List.all_eq_true.mpr
        intro x hx
        obtain ⟨d, hd, hdc⟩ := List.mem_map.mp hx
        have := of_decide_eq_true (List.all_eq_true.mp h3 d hd)
        exact decide_eq_true (hdc ▸ schemeChars_lower d this)
      · exact pyLower_idem pre
    · rw [if_neg hg]
      left
      rfl

/-- The remainder produced by `splitSchemeL` is made of input characters. -/
theorem splitSchemeL_snd_subset (l : List Char) (c : Char)
    (h : c ∈ (splitSchemeL l).2) : c ∈ l := by
  rw [splitSchemeL] at h
  rcases hs : splitOnceChar l ':' with _ | ⟨pre, post⟩
  · rw [hs] at h
    exact h
  · rw [hs] at h
    dsimp only at h
    obtain ⟨hl, _⟩ := splitOnceChar_eq_some l ':' pre post hs
    by_cases hg : ¬ pre = [] ∧ ((pre.head?.map isAsciiAlpha).getD false) = true ∧
        pre.all (fun c => decide (c ∈ schemeCharsL)) = true
    · rw [if_pos hg] at h
      rw [hl]
      exact List.mem_append.mpr (Or.inr (List.mem_cons_of_mem _ h))
    · rw [if_neg hg] at h
      exact h

/-- On empty path, query and fragment, `urlunsplit` produces one of four
shapes, fixed by whether the scheme and netloc are empty. -/
theorem urlunsplit_canon_shape (s h : List Char) :
    urlunsplitL s h [] [] [] =
      if h = [] then
        (if s = [] then []
         else if s ∈ usesNetlocL then s ++ [':', '/', '/'] else s ++ [':'])
      else (if s = [] then '/' :: '/' :: h else s ++ ':' :: '/' :: '/' :: h) := by
  rw [urlunsplitL]
  by_cases hh : h = []
  · subst hh
    rw [if_pos rfl]
    by_cases hse : s = []
    · subst hse
      rw [if_pos rfl]
      rw [if_neg (by simp), if_neg (by simp), if_neg (by simp), if_neg (by simp)]
    · rw [if_neg hse]
      by_cases hnet : s ∈ usesNetlocL
      · rw [if_pos hnet]
        rw [if_pos (Or.inr ⟨hse, hnet, by simp⟩)]
        rw [if_neg (by simp), if_pos hse, if_neg (by simp), if_neg (by simp)]
        rfl
      · rw [if_neg hnet]
        rw [if_neg (fun hc => Or.elim hc (fun h1 => h1 rfl) (fun h2 => hnet h2.2.1)),
          if_pos hse, if_neg (by simp), if_neg (by simp)]
  · rw [if_neg hh]
    rw [if_pos (Or.inl hh), if_neg (by simp)]
    by_cases hse : s = []
    · subst hse
      rw [if_pos rfl, if_neg (by simp), if_neg (by simp), if_neg (by simp)]
      simp
    · rw [if_neg hse, if_pos hse, if_neg (by simp), if_neg (by simp)]
      simp

/-- Lowering the canonical reassembly lowers the netloc (a lowered scheme
is unchanged). -/
theorem pyLower_unsplit (s h : List Char) (hs : pyLower s = s) :
    pyLower (urlunsplitL s h [] [] []) = urlunsplitL s (pyLower h) [] [] [] := by
  rw [urlunsplit_canon_shape, urlunsplit_canon_shape]
  have hcl : pyLowerChar ':' = ':' := by decide
  have hsl : pyLowerChar '/' = '/' := by decide
  by_cases hh : h = []
  · subst hh
    have hpl : pyLower ([] : List Char) = [] := rfl
    rw [hpl, if_pos rfl]
    by_cases hse : s = []
    · subst hse
      rw [if_pos rfl]
      rfl
    · rw [if_neg hse]
      by_cases hnet : s ∈ usesNetlocL
      · rw [if_pos hnet, pyLower, List.map_append, ← pyLower, hs]
        simp [pyLower, hcl, hsl]
      · rw [if_neg hnet, pyLower, List.map_append, ← pyLower, hs]
        simp [pyLower, hcl, hsl]
  · have hph : ¬ pyLower h = [] := fun hc => hh (List.map_eq_nil_iff.mp hc)
    rw [if_neg hh, if_neg hph]
    by_cases hse : s = []
    · subst hse
      rw [if_pos rfl, if_pos rfl]
      simp [pyLower, hsl]
    · rw [if_neg hse, if_neg hse, pyLower, List.map_append, ← pyLower, hs]
      simp [pyLower, hcl, hsl]

/-- Characters of the canonical reassembly come from the scheme, the
netloc, or the inserted `:` and `/`. -/
theorem mem_unsplit_canon (s h : List Char) (c : Char)
    (hc : c ∈ urlunsplitL s h [] [] []) : c ∈ s ∨ c = ':' ∨ c = '/' ∨ c ∈ h := by
  rw [urlunsplit_canon_shape] at hc
  by_cases hh : h = []
  · rw [if_pos hh] at hc
    by_cases hse : s = []
    · rw [if_pos hse] at hc
      simp at hc
    · rw [if_neg hse] at hc
      by_cases hnet : s ∈ usesNetlocL
      · rw [if_pos hnet] at hc
        rcases List.mem_append.mp hc with h1 | h1
        · exact Or.inl h1
        · simp at h1
          tauto
      · rw [if_neg hnet] at hc
        rcases List.mem_append.mp hc with h1 | h1
        · exact Or.inl h1
        · simp at h1
          tauto
  · rw [if_neg hh] at hc
    by_cases hse : s = []
    · rw [if_pos hse] at hc
      rcases List.mem_cons.mp hc with rfl | hc2
      · tauto
      · rcases List.mem_cons.mp hc2 with rfl | hc3
        · tauto
        · tauto
    · rw [if_neg hse] at hc
      rcases List.mem_append.mp hc with h1 | h1
      · exact Or.inl h1
      · rcases List.mem_cons.mp h1 with rfl | h2
        · tauto
        · rcases List.mem_cons.mp h2 with rfl | h3
          · tauto
          · rcases List.mem_cons.mp h3 with rfl | h4
            · tauto
            · tauto

/-- Evaluation of `pyUrlsplitL` from facts about its intermediate steps. -/
theorem pyUrlsplitL_step (url sch rest netloc url2 : List Char)
    (hstrip : stripUrlBytes url = url)
    (hsplit : splitSchemeL url = (sch, rest))
    (hnr : (if rest.take 2 = ['/', '/']
            then (rest.drop 2).takeWhile (fun c => ¬ netlocDelim c) else []) = netloc)
    (hu2 : (if rest.take 2 = ['/', '/']
            then (rest.drop 2).dropWhile (fun c => ¬ netlocDelim c) else rest) = url2)
    (hbr : ¬ (('[' ∈ netloc ∧ ¬ ']' ∈ netloc) ∨ (']' ∈ netloc ∧ ¬ '[' ∈ netloc)))
    (hhash : '#' ∉ url2) (hq : '?' ∉ url2) :
    pyUrlsplitL url = .ok ⟨sch, netloc, url2, [], []⟩ := by
  rw [pyUrlsplitL]
  dsimp only
  rw [hstrip, hsplit]
  dsimp only
  rw [hnr, hu2, if_neg hbr, splitOnceChar_not_mem url2 '#' hhash]
  dsimp only
  rw [splitOnceChar_not_mem url2 '?' hq]

/-- Splitting `scheme://host` with empty path, query and fragment. -/
theorem pyUrlsplitL_scheme_slashes (s h : List Char)
    (hne : ¬ s = []) (hcol : ':' ∉ s)
    (halpha : ((s.head?.map isAsciiAlpha).getD false) = true)
    (hchars : s.all (fun c => decide (c ∈ schemeCharsL)) = true)
    (hlow : pyLower s = s)
    (htab : ∀ c ∈ h, ¬ (c = '\t' ∨ c = '\r' ∨ c = '\n'))
    (hdelim : ∀ c ∈ h, netlocDelim c = false)
    (hbrl : '[' ∉ h) (hbrr : ']' ∉ h) :
    pyUrlsplitL (s ++ ':' :: '/' :: '/' :: h) = .ok ⟨s, h, [], [], []⟩ := by
  have hstrip : stripUrlBytes (s ++ ':' :: '/' :: '/' :: h) =
      s ++ ':' :: '/' :: '/' :: h := by
    rw [stripUrlBytes]
    apply List.filter_eq_self.mpr
    intro c hc
    rcases List.mem_append.mp hc with hcs | hch
    · have hmem := of_decide_eq_true (List.all_eq_true.mp hchars c hcs)
      exact decide_eq_true (schemeChars_ws c hmem)
    · rcases List.mem_cons.mp hch with rfl | hch2
      · decide
      · rcases List.mem_cons.mp hch2 with rfl | hch3
        · decide
        · rcases List.mem_cons.mp hch3 with rfl | hch4
          · decide
          · exact decide_eq_true (htab c hch4)
  have htk : List.take 2 ('/' :: '/' :: h) = ['/', '/'] := by simp
  refine pyUrlsplitL_step _ s ('/' :: '/' :: h) h [] hstrip
    (splitSchemeL_valid s ('/' :: '/' :: h) hne hcol halpha hchars hlow) ?_ ?_ ?_ ?_ ?_
  · rw [if_pos htk]
    exact takeWhile_all h fun c hc => by simp [hdelim c hc]
  · rw [if_pos htk]
    exact dropWhile_all h fun c hc => by simp [hdelim c hc]
  · rintro (⟨h1, _⟩ | ⟨h1, _⟩)
    exacts [hbrl h1, hbrr h1]
  · simp
  · simp

/-- Splitting `scheme:` with nothing after the colon. -/
theorem pyUrlsplitL_scheme_colon (s : List Char)
    (hne : ¬ s = []) (hcol : ':' ∉ s)
    (halpha : ((s.head?.map isAsciiAlpha).getD false) = true)
    (hchars : s.all (fun c => decide (c ∈ schemeCharsL)) = true)
    (hlow : pyLower s = s) :
    pyUrlsplitL (s ++ [':']) = .ok ⟨s, [], [], [], []⟩ := by
  have hstrip : stripUrlBytes (s ++ [':']) = s ++ [':'] := by
    rw [stripUrlBytes]
    apply List.filter_eq_self.mpr
    intro c hc
    rcases List.mem_append.mp hc with hcs | hch
    · have hmem := of_decide_eq_true (List.all_eq_true.mp hchars c hcs)
      exact decide_eq_true (schemeChars_ws c hmem)
    · rcases List.mem_cons.mp hch with rfl | hch2
      · decide
      · simp at hch2
  refine pyUrlsplitL_step _ s [] [] [] hstrip
    (splitSchemeL_valid s [] hne hcol halpha hchars hlow) ?_ ?_ ?_ ?_ ?_
  · rw [if_neg (by decide)]
  · rw [if_neg (by decide)]
  · simp
  · simp
  · simp

/-- Splitting `//host` with no scheme. -/
theorem pyUrlsplitL_slashes (h : List Char)
    (htab : ∀ c ∈ h, ¬ (c = '\t' ∨ c = '\r' ∨ c = '\n'))
    (hdelim : ∀ c ∈ h, netlocDelim c = false)
    (hbrl : '[' ∉ h) (hbrr : ']' ∉ h) :
    pyUrlsplitL ('/' :: '/' :: h) = .ok ⟨[], h, [], [], []⟩ := by
  have hstrip : stripUrlBytes ('/' :: '/' :: h) = '/' :: '/' :: h := by
    rw [stripUrlBytes]
    apply List.filter_eq_self.mpr
    intro c hc
    rcases List.mem_cons.mp hc with rfl | hch2
    · decide
    · rcases List.mem_cons.mp hch2 with rfl | hch3
      · decide
      · exact decide_eq_true (htab c hch3)
  have hsplit : splitSchemeL ('/' :: '/' :: h) = ([], '/' :: '/' :: h) := by
    apply splitSchemeL_head_not_alpha
    simp [show isAsciiAlpha '/' = false from by decide]
  have htk : List.take 2 ('/' :: '/' :: h) = ['/', '/'] := by simp
  refine pyUrlsplitL_step _ [] ('/' :: '/' :: h) h [] hstrip hsplit ?_ ?_ ?_ ?_ ?_
  · rw [if_pos htk]
    exact takeWhile_all h fun c hc => by simp [hdelim c hc]
  · rw [if_pos htk]
    exact dropWhile_all h fun c hc => by simp [hdelim c hc]
  · rintro (⟨h1, _⟩ | ⟨h1, _⟩)
    exacts [hbrl h1, hbrr h1]
  · simp
  · simp

/-- Splitting the canonical reassembly of a valid lowered scheme and a
clean host recovers both. -/
theorem pyUrlsplit_canon_reparse (s h : List Char)
    (hs : s = [] ∨ (¬ s = [] ∧ ':' ∉ s ∧
      ((s.head?.map isAsciiAlpha).getD false) = true ∧
      s.all (fun c => decide (c ∈ schemeCharsL)) = true ∧ pyLower s = s))
    (htab : ∀ c ∈ h, ¬ (c = '\t' ∨ c = '\r' ∨ c = '\n'))
    (hdelim : ∀ c ∈ h, netlocDelim c = false)
    (hbrl : '[' ∉ h) (hbrr : ']' ∉ h) :
    pyUrlsplitL (urlunsplitL s h [] [] []) = .ok ⟨s, h, [], [], []⟩ := by
  rw [urlunsplit_canon_shape]
  rcases hs with hse | ⟨hne, hcol, halpha, hchars, hlow⟩
  · subst hse
    by_cases hh : h = []
    · subst hh
      rw [if_pos rfl, if_pos rfl]
      decide
    · rw [if_neg hh, if_pos rfl]
      exact pyUrlsplitL_slashes h htab hdelim hbrl hbrr
  · by_cases hh : h = []
    · subst hh
      rw [if_pos rfl, if_neg hne]
      by_cases hnet : s ∈ usesNetlocL
      · rw [if_pos hnet]
        exact pyUrlsplitL_scheme_slashes s [] hne hcol halpha hchars hlow
          (fun c hc => by simp at hc) (fun c hc => by simp at hc)
          (by simp) (by simp)
      · rw [if_neg hnet]
        exact pyUrlsplitL_scheme_colon s hne hcol halpha hchars hlow
    · rw [if_neg hh, if_neg hne]
      exact pyUrlsplitL_scheme_slashes s h hne hcol halpha hchars hlow
        htab hdelim hbrl hbrr

/-- The netloc extracted by `urlsplit` has no delimiter and none of the
stripped bytes. -/
theorem pyUrlsplitL_netloc_spec (url : List Char) (r : PySplitResult)
    (h : pyUrlsplitL url = .ok r) :
    ∀ c ∈ r.netloc, netlocDelim c = false ∧ ¬ (c = '\t' ∨ c = '\r' ∨ c = '\n') := by
  rw [pyUrlsplitL] at h
  by_cases htake : (splitSchemeL (stripUrlBytes url)).2.take 2 = ['/', '/']
  · rw [if_pos htake, if_pos htake] at h
    split_ifs at h with hbr
    have h2 := Except.ok.inj h
    subst h2
    intro c hc
    dsimp only at hc
    obtain ⟨hin, hp⟩ := mem_takeWhile_sub _ _ hc
    refine ⟨by simpa using hp, ?_⟩
    have hin2 : c ∈ (splitSchemeL (stripUrlBytes url)).2 :=
      List.drop_subset _ _ hin
    have hin3 : c ∈ stripUrlBytes url := splitSchemeL_snd_subset _ c hin2
    rw [stripUrlBytes] at hin3
    have := (List.mem_filter.mp hin3).2
    simpa using this
  · rw [if_neg htake, if_neg htake] at h
    split_ifs at h with hbr
    have h2 := Except.ok.inj h
    subst h2
    intro c hc
    dsimp only at hc
    simp at hc

/-- The scheme extracted by `urlsplit` is what `splitSchemeL` produced. -/
theorem pyUrlsplitL_scheme_eq (url : List Char) (r : PySplitResult)
    (h : pyUrlsplitL url = .ok r) :
    r.scheme = (splitSchemeL (stripUrlBytes url)).1 := by
  rw [pyUrlsplitL] at h
  by_cases htake : (splitSchemeL (stripUrlBytes url)).2.take 2 = ['/', '/']
  · rw [if_pos htake, if_pos htake] at h
    split_ifs at h with hbr
    have h2 := Except.ok.inj h
    subst h2
    rfl
  · rw [if_neg htake, if_neg htake] at h
    split_ifs at h with hbr
    have h2 := Except.ok.inj h
    subst h2
    rfl

/-- `urlparse` keeps the scheme and netloc of `urlsplit`. -/
theorem pyUrlparseL_scheme_netloc (url : List Char) (p : PyParseResult)
    (h : pyUrlparseL url = .ok p) :
    ∃ r, pyUrlsplitL url = .ok r ∧ p.scheme = r.scheme ∧ p.netloc = r.netloc := by
  rw [pyUrlparseL] at h
  cases hr : pyUrlsplitL url with
  | error e =>
    rw [hr] at h
    exact absurd h (by simp [Except.map])
  | ok r =>
    rw [hr] at h
    simp only [Except.map] at h
    have hfr := Except.ok.inj h
    refine ⟨r, rfl, ?_, ?_⟩ <;> rw [← hfr] <;> split_ifs <;> rfl

/-- With no `;` in the path, `urlparse` is `urlsplit` with empty params. -/
theorem pyUrlparse_of_urlsplit_no_params (url : List Char) (r : PySplitResult)
    (h : pyUrlsplitL url = .ok r) (hp : ';' ∉ r.path) :
    pyUrlparseL url = .ok ⟨r.scheme, r.netloc, r.path, [], r.query, r.fragment⟩ := by
  rw [pyUrlparseL, h]
  simp only [Except.map]
  rw [if_neg fun hc => hp hc.2]

/-- Inversion of `defaultCanonHost`. -/
theorem defaultCanonHost_eq_some (u : String) (H : List Char)
    (h : defaultCanonHost u = some H) :
    ∃ p, pyUrlparseL u.data = .ok p ∧
      H = pyLower (SrcNorm.strip_subdomain
        (if (hostnameOrEmptyL p.netloc).take 4 = "www.".data
         then (hostnameOrEmptyL p.netloc).drop 4 else hostnameOrEmptyL p.netloc)) := by
  rw [defaultCanonHost] at h
  cases hp : pyUrlparseL u.data with
  | error e =>
    rw [hp] at h
    exact absurd h (by simp)
  | ok p =>
    rw [hp] at h
    exact ⟨p, rfl, (Option.some.inj h).symm⟩

/-- A character of the canonical host that is not a letter, a dot or a
percent sign comes from the netloc. -/
theorem canonHost_char_cases (netloc : List Char) (f : Char)
    (hf1 : ¬ (97 ≤ f.toNat ∧ f.toNat ≤ 122)) (hf2 : ¬ (65 ≤ f.toNat ∧ f.toNat ≤ 90))
    (hfd : ¬ f = '.') (hfp : ¬ f = '%') (hfn : f ∉ netloc)
    (hmem : f ∈ pyLower (SrcNorm.strip_subdomain
      (if (hostnameOrEmptyL netloc).take 4 = "www.".data
       then (hostnameOrEmptyL netloc).drop 4 else hostnameOrEmptyL netloc))) :
    False := by
  rw [mem_pyLower_iff _ _ hf1 hf2] at hmem
  rcases mem_strip_subdomain _ _ hmem with h1 | h1
  · have h0 : f ∈ hostnameOrEmptyL netloc := by
      split_ifs at h1 with hw
      · exact List.drop_subset _ _ h1
      · exact h1
    exact hostnameOrEmpty_no_char netloc f hf1 hfp hfn h0
  · exact hfd h1

/-- The canonical host never contains `@`. -/
theorem canonHost_no_at (netloc : List Char)
    (hmem : '@' ∈ pyLower (SrcNorm.strip_subdomain
      (if (hostnameOrEmptyL netloc).take 4 = "www.".data
       then (hostnameOrEmptyL netloc).drop 4 else hostnameOrEmptyL netloc))) :
    False := by
  rw [mem_pyLower_iff _ _ (by simp) (by simp)] at hmem
  rcases mem_strip_subdomain _ _ hmem with h1 | h1
  · have h0 : '@' ∈ hostnameOrEmptyL netloc := by
      split_ifs at h1 with hw
      · exact List.drop_subset _ _ h1
      · exact h1
    exact hostnameOrEmpty_no_at netloc h0
  · exact absurd h1 (by decide)

/-- A `String.mk` of a non-empty list is not the empty string. -/
theorem string_mk_ne_empty (l : List Char) (h : ¬ l = []) : ¬ String.mk l = "" :=
  fun hc => h (congrArg String.data hc)

/-- Evaluation of `canonicalize_url` under the default config on a
successfully parsed URL. -/
theorem canonicalize_default_eval (u : String) (p : PyParseResult)
    (hu : ¬ u = "") (hp : pyUrlparseL u.data = .ok p) :
    SrcNorm.canonicalize_url u SrcNorm.DEFAULT_CONFIG =
      .ok (String.mk (pyLower (urlunsplitL p.scheme
        (SrcNorm.strip_subdomain
          (if (hostnameOrEmptyL p.netloc).take 4 = "www.".data
            then (hostnameOrEmptyL p.netloc).drop 4
            else hostnameOrEmptyL p.netloc)) [] [] []))) := by
  rw [SrcNorm.canonicalize_url, if_neg hu, hp]
  simp only [Except.map]
  rw [urlunparseL]
  simp [SrcNorm.DEFAULT_CONFIG, SrcNorm.applyAliases]

/-- C9 counterexample: the default canonicalization is not idempotent.
For `http://a.www.com` the first pass keeps the last two labels
`www.com`, and the second pass strips that host's `www.` prefix, giving
`http://com`. -/
theorem canonicalize_url_default_not_idempotent :
    SrcNorm.canonicalize_url "http://a.www.com" SrcNorm.DEFAULT_CONFIG =
      .ok "http://www.com" ∧
    SrcNorm.canonicalize_url "http://www.com" SrcNorm.DEFAULT_CONFIG =
      .ok "http://com" ∧
    ¬ (SrcNorm.canonicalize_url "http://www.com" SrcNorm.DEFAULT_CONFIG =
      .ok "http://www.com") :=
  ⟨by decide, by decide, by decide⟩

/-- C9: under the default `NormalizationConfig` every successful
`canonicalize_url` output equals its own lowercase, the canonical host
kept in the output has at most two dot-separated labels, and the map is
idempotent on every URL whose canonical host does not itself start with
`www.` and contains no `:`, `[` or `]`. -/
theorem canonicalize_url_default_spec :
    (∀ u o, SrcNorm.canonicalize_url u SrcNorm.DEFAULT_CONFIG = .ok o →
      pyLowerS o = o) ∧
    (∀ u H, defaultCanonHost u = some H → (splitOnChar '.' H).length ≤ 2) ∧
    (∀ u H, defaultCanonHost u = some H →
      ¬ H.take 4 = "www.".data → ':' ∉ H → '[' ∉ H → ']' ∉ H →
      ∃ o, SrcNorm.canonicalize_url u SrcNorm.DEFAULT_CONFIG = .ok o ∧
        SrcNorm.canonicalize_url o SrcNorm.DEFAULT_CONFIG = .ok o) := by
  refine ⟨?_, ?_, ?_⟩
  · intro u o h
    by_cases hu : u = ""
    · subst hu
      rw [SrcNorm.canonicalize_url, if_pos rfl] at h
      rw [← Except.ok.inj h]
      decide
    · cases hp : pyUrlparseL u.data with
      | error e =>
        rw [SrcNorm.canonicalize_url, if_neg hu, hp] at h
        exact absurd h (by simp [Except.map])
      | ok p =>
        have he := canonicalize_default_eval u p hu hp
        rw [he] at h
        have ho := Except.ok.inj h
        rw [← ho]
        have hev : pyLowerS (String.mk (pyLower (urlunsplitL p.scheme
            (SrcNorm.strip_subdomain
              (if (hostnameOrEmptyL p.netloc).take 4 = "www.".data
                then (hostnameOrEmptyL p.netloc).drop 4
                else hostnameOrEmptyL p.netloc)) [] [] []))) =
            String.mk (pyLower (pyLower (urlunsplitL p.scheme
              (SrcNorm.strip_subdomain
                (if (hostnameOrEmptyL p.netloc).take 4 = "www.".data
                  then (hostnameOrEmptyL p.netloc).drop 4
                  else hostnameOrEmptyL p.netloc)) [] [] []))) := rfl
        rw [hev, pyLower_idem]
  · intro u H hH
    obtain ⟨p, hp, hHdef⟩ := defaultCanonHost_eq_some u H hH
    have hcount : H.count '.' ≤ 1 := by
      rw [hHdef, count_pyLower _ _ (by decide) (by decide)]
      exact strip_subdomain_count _
    rw [splitOnChar_length]
    omega
  · intro u H hH hw hcolH hbrlH hbrrH
    by_cases hu : u = ""
    · refine ⟨"", ?_, ?_⟩ <;> (subst hu; decide)
    · obtain ⟨p, hp, hHdef⟩ := defaultCanonHost_eq_some u H hH
      obtain ⟨r, hr, hps, hpn⟩ := pyUrlparseL_scheme_netloc u.data p hp
      have hS := splitSchemeL_fst_spec (stripUrlBytes u.data)
      rw [← pyUrlsplitL_scheme_eq u.data r hr, ← hps] at hS
      have netfacts := pyUrlsplitL_netloc_spec u.data r hr
      rw [← hpn] at netfacts
      have hSlow : pyLower p.scheme = p.scheme := by
        rcases hS with h | h
        · rw [h]
          rfl
        · exact h.2.2.2.2
      have hbad : ∀ f : Char, ¬ (97 ≤ f.toNat ∧ f.toNat ≤ 122) →
          ¬ (65 ≤ f.toNat ∧ f.toNat ≤ 90) → ¬ f = '.' → ¬ f = '%' →
          f ∉ p.netloc → f ∉ H := by
        intro f h1 h2 h3 h4 h5 hmem
        rw [hHdef] at hmem
        exact canonHost_char_cases p.netloc f h1 h2 h3 h4 h5 hmem
      have htabH : ∀ c ∈ H, ¬ (c = '\t' ∨ c = '\r' ∨ c = '\n') := by
        intro c hc hcon
        rcases hcon with rfl | rfl | rfl
        · exact hbad '\t' (by decide) (by decide) (by decide) (by decide)
            (fun hin => (netfacts '\t' hin).2 (Or.inl rfl)) hc
        · exact hbad '\r' (by decide) (by decide) (by decide) (by decide)
            (fun hin => (netfacts '\r' hin).2 (Or.inr (Or.inl rfl))) hc
        · exact hbad '\n' (by decide) (by decide) (by decide) (by decide)
            (fun hin => (netfacts '\n' hin).2 (Or.inr (Or.inr rfl))) hc
      have hdelimH : ∀ c ∈ H, netlocDelim c = false := by
        intro c hc
        by_cases hd : netlocDelim c = true
        · exfalso
          rw [netlocDelim] at hd
          rcases of_decide_eq_true hd with rfl | rfl | rfl
          · exact hbad '/' (by decide) (by decide) (by decide) (by decide)
              (fun hin => absurd (netfacts '/' hin).1 (by decide)) hc
          · exact hbad '?' (by decide) (by decide) (by decide) (by decide)
              (fun hin => absurd (netfacts '?' hin).1 (by decide)) hc
          · exact hbad '#' (by decide) (by decide) (by decide) (by decide)
              (fun hin => absurd (netfacts '#' hin).1 (by decide)) hc
        · simpa using hd
      have hHlow : pyLower H = H := by
        rw [hHdef]
        exact pyLower_idem _
      have hatH : '@' ∉ H := by
        intro hc
        rw [hHdef] at hc
        exact canonHost_no_at p.netloc hc
      have hhost : hostnameOrEmptyL H = H :=
        hostnameOrEmpty_self H hHlow hatH hbrlH hcolH
      have hcount : H.count '.' ≤ 1 := by
        rw [hHdef, count_pyLower _ _ (by decide) (by decide)]
        exact strip_subdomain_count _
      have he := canonicalize_default_eval u p hu hp
      have hounsplit : pyLower (urlunsplitL p.scheme
          (SrcNorm.strip_subdomain
            (if (hostnameOrEmptyL p.netloc).take 4 = "www.".data
              then (hostnameOrEmptyL p.netloc).drop 4
              else hostnameOrEmptyL p.netloc)) [] [] []) =
          urlunsplitL p.scheme H [] [] [] := by
        rw [pyLower_unsplit _ _ hSlow, ← hHdef]
      refine ⟨String.mk (urlunsplitL p.scheme H [] [] []), ?_, ?_⟩
      · rw [he, hounsplit]
      · have hreparse := pyUrlsplit_canon_reparse p.scheme H hS htabH hdelimH
          hbrlH hbrrH
        have hparse2 : pyUrlparseL (urlunsplitL p.scheme H [] [] []) =
            .ok ⟨p.scheme, H, [], [], [], []⟩ :=
          pyUrlparse_of_urlsplit_no_params _ _ hreparse (by simp)
        by_cases hoe : urlunsplitL p.scheme H [] [] [] = []
        · rw [hoe]
          decide
        · have he2 := canonicalize_default_eval
            (String.mk (urlunsplitL p.scheme H [] [] []))
            ⟨p.scheme, H, [], [], [], []⟩ (string_mk_ne_empty _ hoe) hparse2
          rw [he2]
          show Except.ok (String.mk (pyLower (urlunsplitL p.scheme
            (SrcNorm.strip_subdomain
              (if (hostnameOrEmptyL H).take 4 = "www.".data
                then (hostnameOrEmptyL H).drop 4
                else hostnameOrEmptyL H)) [] [] []))) = _
          rw [hhost, if_neg hw, strip_subdomain_noop H hcount,
            pyLower_unsplit _ _ hSlow, hHlow]

/-- Witness for the C9 theorem: all three conjuncts exercised at concrete
URLs, with every hypothesis checked by evaluation. -/
theorem canonicalize_url_default_spec_witness :
    pyLowerS "https://example.com" = "https://example.com" ∧
    (splitOnChar '.' "example.com".data).length ≤ 2 ∧
    ∃ o, SrcNorm.canonicalize_url "https://www.example.com/page?q=1"
        SrcNorm.DEFAULT_CONFIG = .ok o ∧
      SrcNorm.canonicalize_url o SrcNorm.DEFAULT_CONFIG = .ok o :=
  ⟨canonicalize_url_default_spec.1 "https://www.Example.com/page?q=1"
      "https://example.com" (by decide),
   canonicalize_url_default_spec.2.1 "https://www.example.com/page?q=1"
      "example.com".data (by decide),
   canonicalize_url_default_spec.2.2 "https://www.example.com/page?q=1"
      "example.com".data (by decide) (by decide) (by decide) (by decide)
      (by decide)⟩

end WikiSources
